import Mathlib

/-!
Verification of the VesselTimeline data-extraction scripts.

This file is a shallow embedding, in Lean 4, of the pure extraction core of
the repository (files `Feedrate_Load_onedrive.py`, `TBN_Fe_extract_onedrive.py`,
`Me_SYS_oil_onedrive.py`): string normalization, fuzzy header resolution via
`difflib.SequenceMatcher`, date parsing, the wide-to-long row extractors and
the numeric cleaning loops.  The I/O plumbing (HTTP, MySQL, Power BI) is out
of scope.  Machine floats do not occur in the modelled fragment: the
`SequenceMatcher.ratio` value is represented exactly as a rational number
(the 0.60 threshold comparison agrees with the float comparison for all
ratios with the small denominators that occur here).

Python strings are modelled as `String`/`List Char` over Unicode code points.
Character-class primitives (`str.lower`, the NFKD-to-ASCII fold, `\s`) are
modelled exactly on the ASCII range plus the specific non-ASCII characters
used in this development; this is noted at each definition.
-/

/-- Python `\s` / `str.isspace` on the code points this development touches:
the ASCII whitespace range 0x09-0x0D, 0x1C-0x1F, 0x20, plus NEL 0x85, NBSP
0xA0 and the standard Unicode space separators. -/
def pyIsSpace (c : Char) : Bool :=
  decide ((9 ≤ c.toNat ∧ c.toNat ≤ 13) ∨ c.toNat = 32 ∨
    (28 ≤ c.toNat ∧ c.toNat ≤ 31) ∨ c.toNat = 0x85 ∨ c.toNat = 0xa0 ∨
    c.toNat = 0x1680 ∨ (0x2000 ≤ c.toNat ∧ c.toNat ≤ 0x200a) ∨
    c.toNat = 0x2028 ∨ c.toNat = 0x2029 ∨ c.toNat = 0x202f ∨
    c.toNat = 0x205f ∨ c.toNat = 0x3000)

/-- Python regex `\w` restricted to ASCII (`[a-zA-Z0-9_]`).  In
`normalize_string` the regex runs only after the NFKD/ASCII projection, so
its input is pure ASCII and this is exact there. -/
def isWordChar (c : Char) : Bool :=
  decide ((97 ≤ c.toNat ∧ c.toNat ≤ 122) ∨ (65 ≤ c.toNat ∧ c.toNat ≤ 90) ∨
    (48 ≤ c.toNat ∧ c.toNat ≤ 57) ∨ c.toNat = 95)

/-- Python `str.lower`, modelled per code point: exact on ASCII and on every
character without a lowercase mapping (digits, punctuation, and symbols such
as the numero sign, which Python leaves unchanged). -/
def pyLower (c : Char) : Char :=
  if 65 ≤ c.toNat ∧ c.toNat ≤ 90 then Char.ofNat (c.toNat + 32) else c

/-- `unicodedata.normalize('NFKD', s).encode('ascii','ignore')`: per-character
compatibility decomposition followed by dropping non-ASCII.  ASCII is fixed;
the non-ASCII entries listed are the ones used in this development (checked
against UnicodeData.txt); all other non-ASCII characters are modelled as
having no ASCII-compatible decomposition and fold to nothing. -/
def nfkdAsciiFold (c : Char) : List Char :=
  if c.toNat < 128 then [c]
  else if c = '№' then ['N', 'o']
  else if c = 'é' then ['e']
  else if c.toNat = 0xa0 then [' ']
  else []

/-- Python `str.strip`: drop leading and trailing whitespace. -/
def pyStrip (l : List Char) : List Char :=
  ((l.dropWhile pyIsSpace).reverse.dropWhile pyIsSpace).reverse

/-- Worker for `collapseWs`: the flag records whether the previous character
was whitespace (in which case further whitespace of the same run is
swallowed). -/
def collapseWsAux : Bool → List Char → List Char
  | _, [] => []
  | inWs, c :: rest =>
    if pyIsSpace c then
      (if inWs then [] else [' ']) ++ collapseWsAux true rest
    else c :: collapseWsAux false rest

/-- Python `re.sub(r'\s+', ' ', s)`: replace every maximal whitespace run by
one space. -/
def collapseWs (l : List Char) : List Char :=
  collapseWsAux false l

/-- `normalize_string` from the scripts: lowercase, strip, NFKD fold to
ASCII, replace each non-word non-space character by a space, collapse
whitespace runs, strip again. -/
def normalize_string (s : String) : String :=
  let l1 := s.data.map pyLower
  let l2 := pyStrip l1
  let l3 := l2.flatMap nfkdAsciiFold
  let l4 := l3.map (fun c => if isWordChar c || pyIsSpace c then c else ' ')
  String.mk (pyStrip (collapseWs l4))

/-! ## difflib.SequenceMatcher

Faithful model of CPython `difflib.SequenceMatcher` with `isjunk=None` on
inputs of length below 200 (so the autojunk popularity heuristic never
fires; every string compared in the scripts is a short header cell). -/

/-- The result triple of `find_longest_match`: start in `a`, start in `b`,
size. -/
structure FLMBest where
  bi : Nat
  bj : Nat
  sz : Nat
deriving DecidableEq

/-- The occurrence list `b2j[c]` restricted to `[blo, bhi)` (CPython skips
`j < blo` and breaks at `j >= bhi`; the list is ascending). -/
def occs (b : List Char) (c : Char) (blo bhi : Nat) : List Nat :=
  (List.range b.length).filter
    (fun j => decide (blo ≤ j ∧ j < bhi ∧ b.get? j = some c))

/-- `k = j2len.get(j-1, 0) + 1`: the diagonal run length through `(i, j)`
given the previous row (`j2len.get(-1, 0)` is 0, hence the `j = 0` case). -/
def kOf (j2p : List (Nat × Nat)) (j : Nat) : Nat :=
  (if j = 0 then 0 else ((List.lookup (j - 1) j2p).getD 0)) + 1

/-- Inner loop of `find_longest_match`: one row `i`, scanning the occurrence
list of `a[i]` in `b`, threading the best block and building the new
`j2len` row (`acc`). `j2p` is the previous row. -/
def flmInner (j2p : List (Nat × Nat)) (i : Nat) :
    List Nat → FLMBest → List (Nat × Nat) → FLMBest × List (Nat × Nat)
  | [], st, acc => (st, acc)
  | j :: js, st, acc =>
    let k := kOf j2p j
    let st' := if st.sz < k then ⟨i + 1 - k, j + 1 - k, k⟩ else st
    flmInner j2p i js st' ((j, k) :: acc)

/-- Outer loop of `find_longest_match` over the rows `alo..ahi-1`. -/
def flmOuter (a b : List Char) (blo bhi : Nat) :
    List Nat → FLMBest → List (Nat × Nat) → FLMBest
  | [], st, _ => st
  | i :: is, st, j2p =>
    let p := flmInner j2p i (occs b (a.getD i ' ') blo bhi) st []
    flmOuter a b blo bhi is p.1 p.2

/-- The downward junk-extension while-loop of `find_longest_match` (with no
junk it extends while the preceding characters match). -/
def flmExtDown (a b : List Char) (alo blo : Nat) :
    Nat → FLMBest → FLMBest
  | 0, st => st
  | f + 1, st =>
    if alo < st.bi ∧ blo < st.bj ∧ (a.get? (st.bi - 1)).isSome ∧
        a.get? (st.bi - 1) = b.get? (st.bj - 1) then
      flmExtDown a b alo blo f ⟨st.bi - 1, st.bj - 1, st.sz + 1⟩
    else st

/-- The upward junk-extension while-loop of `find_longest_match`. -/
def flmExtUp (a b : List Char) (ahi bhi : Nat) :
    Nat → FLMBest → FLMBest
  | 0, st => st
  | f + 1, st =>
    if st.bi + st.sz < ahi ∧ st.bj + st.sz < bhi ∧
        (a.get? (st.bi + st.sz)).isSome ∧
        a.get? (st.bi + st.sz) = b.get? (st.bj + st.sz) then
      flmExtUp a b ahi bhi f ⟨st.bi, st.bj, st.sz + 1⟩
    else st

/-- `SequenceMatcher.find_longest_match(alo, ahi, blo, bhi)`. -/
def find_longest_match (a b : List Char) (alo ahi blo bhi : Nat) : FLMBest :=
  let st := flmOuter a b blo bhi (List.range' alo (ahi - alo)) ⟨alo, blo, 0⟩ []
  flmExtUp a b ahi bhi ahi (flmExtDown a b alo blo st.bi st)

/-- Total size of the matching blocks found by the recursive splitting of
`get_matching_blocks` (the fuel is an upper bound on the recursion depth;
`ahi - alo` suffices). -/
def matchTotal (a b : List Char) : Nat → Nat → Nat → Nat → Nat → Nat
  | 0, _, _, _, _ => 0
  | f + 1, alo, ahi, blo, bhi =>
    let st := find_longest_match a b alo ahi blo bhi
    if st.sz = 0 then 0
    else matchTotal a b f alo st.bi blo st.bj + st.sz +
      matchTotal a b f (st.bi + st.sz) ahi (st.bj + st.sz) bhi

/-- `SequenceMatcher(None, a, b).ratio()` as an exact rational:
`2*M/(len a + len b)`, and `1` when both inputs are empty. -/
def ratioQ (a b : List Char) : ℚ :=
  if a.length + b.length = 0 then 1
  else mkRat (2 * (matchTotal a b (a.length + b.length) 0 a.length 0 b.length : Int))
    (a.length + b.length)

/-- `string_similarity` from the scripts: normalize both inputs, then the
SequenceMatcher ratio. -/
def string_similarity (s1 s2 : String) : ℚ :=
  ratioQ (normalize_string s1).data (normalize_string s2).data


/-! ## Cell values

`PyValue` models the scalar values openpyxl yields for cells (with
`data_only=True`): empty cells are `None`, text cells are strings, numeric
cells are numbers (integral values suffice for this development) and date
cells are `datetime` instances (the time-of-day part plays no role). -/

/-- A spreadsheet cell value as seen by the scripts. -/
inductive PyValue where
  | none : PyValue
  | str : String → PyValue
  | int : Int → PyValue
  | date : Nat → Nat → Nat → PyValue
deriving DecidableEq

/-- Two-digit zero padding, as in `strftime` `%m`/`%d`. -/
def pad2 (n : Nat) : String :=
  if n < 10 then "0" ++ toString n else toString n

/-- `strftime("%Y-%m-%d")`.  `%Y` is rendered without padding (the glibc
behaviour); every year appearing in a theorem below has four digits, where
this is exact. -/
def fmtYMD (y m d : Nat) : String :=
  toString y ++ "-" ++ pad2 m ++ "-" ++ pad2 d

/-- Python truthiness of a cell value (`if not date_value: ...`). -/
def pyTruthy (v : PyValue) : Bool :=
  match v with
  | PyValue.none => false
  | PyValue.str s => decide (s ≠ "")
  | PyValue.int n => decide (n ≠ 0)
  | PyValue.date _ _ _ => true

/-- Python `str()` of a cell value. -/
def pyStr (v : PyValue) : String :=
  match v with
  | PyValue.none => "None"
  | PyValue.str s => s
  | PyValue.int n => toString n
  | PyValue.date y m d => fmtYMD y m d ++ " 00:00:00"

/-- Python `x or d`. -/
def pyOr (v d : PyValue) : PyValue :=
  if pyTruthy v then v else d

/-- String-level `str.strip`. -/
def pyStripStr (s : String) : String :=
  String.mk (pyStrip s.data)

/-! ## Header resolution

`find_value_columns_by_headers` in both extraction scripts scans header row
4, cells `row[:100]`, and for each cell tries every target; an assignment
stores the current cell index under the target name in a dict.  The dict is
modelled as an association list with in-place update (`dictUpsert`), which
matches Python dict assignment. -/

/-- Python `dict[k] = v`: replace the value of an existing key in place,
otherwise append the new binding. -/
def dictUpsert (d : List (String × Nat)) (k : String) (v : Nat) :
    List (String × Nat) :=
  match d with
  | [] => [(k, v)]
  | (a, b) :: rest => if a = k then (k, v) :: rest else (a, b) :: dictUpsert rest k v

/-- `str(cell.value) if cell.value else ""` (Feedrate_Load script). -/
def pyCellStr (v : PyValue) : String :=
  if pyTruthy v then pyStr v else ""

/-- `str(cell.value).strip() if cell.value else ""` (TBN_Fe script). -/
def pyCellStrStripped (v : PyValue) : String :=
  if pyTruthy v then pyStripStr (pyStr v) else ""

/-- One header cell against the whole target list, Feedrate_Load variant:
`csn` is the normalized cell text; a target whose similarity against it
reaches 0.60 gets the current index (overwriting any previous value). -/
def frCellTargets (csn : String) (idx : Nat) :
    List String → List (String × Nat) → List (String × Nat)
  | [], d => d
  | t :: ts, d =>
    frCellTargets csn idx ts
      (if mkRat 3 5 ≤ string_similarity csn (normalize_string t) then
        dictUpsert d t idx
      else d)

/-- The scan over the enumerated header cells, Feedrate_Load variant. -/
def frScan (targets : List String) :
    List (Nat × PyValue) → List (String × Nat) → List (String × Nat)
  | [], d => d
  | (i, c) :: rest, d =>
    frScan targets rest (frCellTargets (normalize_string (pyCellStr c)) i targets d)

/-- `find_value_columns_by_headers` of `Feedrate_Load_onedrive.py` applied to
the header row: enumerate the first 100 cells, fuzzy-match every target
against every cell.  (The trailing comprehension `if v is not None` in the
source filters nothing, since every stored value is an index.) -/
def find_value_columns_by_headers (cells : List PyValue) (header_strings : List String) :
    List (String × Nat) :=
  frScan header_strings (cells.take 100).enum []

/-- List-level string `startswith`. -/
def strStarts (s p : String) : Bool :=
  decide (s.data.take p.data.length = p.data)

/-- The target families that `TBN_Fe_extract_onedrive.py` matches by exact
normalized equality instead of the fuzzy threshold. -/
def isExactFamily (t : String) : Bool :=
  strStarts t "Fe magnetic" || strStarts t "Fe corrosive" ||
    strStarts t "Fe total" || strStarts t "Residual TBN" || strStarts t "Unit"

/-- One header cell against the target list, TBN_Fe variant: exact-family
targets compare normalized strings for equality and `break` out of the
target loop on success; other targets use the 0.60 fuzzy threshold.
`cs` is the stripped raw cell text. -/
def tbnCellTargets (cs : String) (idx : Nat) :
    List String → List (String × Nat) → List (String × Nat)
  | [], d => d
  | t :: ts, d =>
    if isExactFamily t then
      if normalize_string t = normalize_string cs then dictUpsert d t idx
      else tbnCellTargets cs idx ts d
    else
      tbnCellTargets cs idx ts
        (if mkRat 3 5 ≤ string_similarity cs (normalize_string t) then
          dictUpsert d t idx
        else d)

/-- The scan over the enumerated header cells, TBN_Fe variant. -/
def tbnScan (targets : List String) :
    List (Nat × PyValue) → List (String × Nat) → List (String × Nat)
  | [], d => d
  | (i, c) :: rest, d =>
    tbnScan targets rest (tbnCellTargets (pyCellStrStripped c) i targets d)

/-- `find_value_columns_by_headers` of `TBN_Fe_extract_onedrive.py`. -/
def tbn_find_value_columns (cells : List PyValue) (header_strings : List String) :
    List (String × Nat) :=
  tbnScan header_strings (cells.take 100).enum []

/-! ## Date parsing

`parse_date` formats `datetime` inputs directly; otherwise it stringifies
and applies `re.match` with `(\d{1,2})[\/\-.](\d{1,2})[\/\-.](\d{2,4})`,
prefixes `20` to two-digit years, and builds the date day-first via
`strptime("%d-%m-%Y")`, returning `None` on `ValueError`.  `re.match`
anchors at the start only, so trailing input after the year is ignored; the
quantifiers are greedy with backtracking.  `strptime`'s `%Y` directive
matches exactly four digits, so a year group of three digits (which the
`len == 2` check does not prefix) always raises `ValueError`. -/

/-- Exactly `n` leading ASCII digits, returning them and the remainder. -/
def takeDigitsExact (l : List Char) (n : Nat) : Option (List Char × List Char) :=
  let d := l.take n
  if d.length = n ∧ d.all Char.isDigit then some (d, l.drop n) else Option.none

/-- One separator character `/`, `-` or `.`. -/
def sepThen (l : List Char) : Option (List Char) :=
  match l with
  | c :: rest => if c = '/' ∨ c = '-' ∨ c = '.' then some rest else Option.none
  | [] => Option.none

/-- The year group `(\d{2,4})`, greedy: four digits if available, else
three, else two. -/
def yearTake (l : List Char) : Option (List Char) :=
  match takeDigitsExact l 4 with
  | some (y, _) => some y
  | Option.none =>
    match takeDigitsExact l 3 with
    | some (y, _) => some y
    | Option.none =>
      match takeDigitsExact l 2 with
      | some (y, _) => some y
      | Option.none => Option.none

/-- One alternative of the date pattern with fixed day/month group widths. -/
def matchWith (l : List Char) (dl ml : Nat) :
    Option (List Char × List Char × List Char) :=
  match takeDigitsExact l dl with
  | Option.none => Option.none
  | some (ds, r1) =>
    match sepThen r1 with
    | Option.none => Option.none
    | some r2 =>
      match takeDigitsExact r2 ml with
      | Option.none => Option.none
      | some (ms, r3) =>
        match sepThen r3 with
        | Option.none => Option.none
        | some r4 =>
          match yearTake r4 with
          | Option.none => Option.none
          | some ys => some (ds, ms, ys)

/-- `re.match` of the date pattern: greedy `\d{1,2}` groups with
backtracking, so the alternatives are tried in the order (2,2), (2,1),
(1,2), (1,1). -/
def matchDMY (l : List Char) : Option (List Char × List Char × List Char) :=
  match matchWith l 2 2 with
  | some r => some r
  | Option.none =>
    match matchWith l 2 1 with
    | some r => some r
    | Option.none =>
      match matchWith l 1 2 with
      | some r => some r
      | Option.none => matchWith l 1 1

/-- Numeric value of a digit string. -/
def natOfDigits (l : List Char) : Nat :=
  l.foldl (fun n c => 10 * n + (c.toNat - 48)) 0

/-- Gregorian leap year, as implemented by `datetime`. -/
def isLeapYear (y : Nat) : Bool :=
  decide (y % 4 = 0 ∧ (y % 100 ≠ 0 ∨ y % 400 = 0))

/-- Days in a month, as implemented by `datetime`. -/
def daysInMonth (m y : Nat) : Nat :=
  if m = 2 then (if isLeapYear y then 29 else 28)
  else if m = 4 ∨ m = 6 ∨ m = 9 ∨ m = 11 then 30 else 31

/-- The value-level checks of `strptime("%d-%m-%Y")` and the `datetime`
constructor, given a four-digit year string: day and month in range for the
calendar, year at least 1 (`datetime.MINYEAR`; the four-digit bound keeps it
at most 9999).  The four-digit requirement of `%Y` itself is checked on the
year string's length at the call site in `parse_date`. -/
def validDMY (d m y : Nat) : Bool :=
  decide (1 ≤ y ∧ y ≤ 9999 ∧ 1 ≤ m ∧ m ≤ 12 ∧ 1 ≤ d ∧ d ≤ daysInMonth m y)

/-- `parse_date` from the scripts.  After the `len == 2` prefixing, the year
string reaches `strptime` unchanged, whose `%Y` matches exactly four digits:
a three-digit year group therefore fails with `ValueError` and yields
`None`. -/
def parse_date (v : PyValue) : Option String :=
  match v with
  | PyValue.date y m d => some (fmtYMD y m d)
  | _ =>
    match matchDMY (pyStr v).data with
    | Option.none => Option.none
    | some (ds, ms, ys) =>
      let ys' := if ys.length = 2 then '2' :: '0' :: ys else ys
      let d := natOfDigits ds
      let m := natOfDigits ms
      let y := natOfDigits ys'
      if ys'.length = 4 ∧ validDMY d m y then some (fmtYMD y m d)
      else Option.none


/-! ## Row extraction

Python's `row[i]` raises `IndexError` when `i` is out of range; the
extractors are therefore embedded in `Except String`, with `pyIndexV`
modelling a bare subscript. -/

/-- `row[i]`: the value, or an `IndexError` when the tuple is too short. -/
def pyIndexV (row : List PyValue) (i : Nat) : Except String PyValue :=
  match row.get? i with
  | some v => Except.ok v
  | Option.none => Except.error "IndexError"

/-- The maximal trailing integer of a string, `re.match(r".*?(\d+)$", key)`:
the maximal all-digit suffix must be non-empty. -/
def trailingInt (s : String) : Option Nat :=
  let ds := s.data.reverse.takeWhile Char.isDigit
  if ds = [] then Option.none else some (natOfDigits ds.reverse)

/-- `detect_max_cylinders`: maximum trailing integer over the resolved
target names, `0` when none has one. -/
def detect_max_cylinders (hm : List (String × Nat)) : Nat :=
  hm.foldl (fun m p =>
    match trailingInt p.1 with
    | some n => max m n
    | Option.none => m) 0

/-- One output record of the TBN/iron-wear extractor. -/
structure TBNRecord where
  Date : Option String
  ME_RH : PyValue
  Cylinder : String
  Fe_Magnet : PyValue
  Fe_Corrosion : PyValue
  Fe_Total : PyValue
  Residual_TBN : PyValue
  Unit_RH : PyValue
  TBN_Fed : PyValue
  Fuel_Sulph : PyValue
  ME_Load : PyValue
deriving DecidableEq

/-- `row[col] if col is not None and col < len(row) else None`: the guarded
cell read used for the ME-rh, TBN-fed and fuel-sulphur columns. -/
def guardedGet (hm : List (String × Nat)) (row : List PyValue) (key : String) :
    PyValue :=
  match List.lookup key hm with
  | some c => if c < row.length then row.getD c PyValue.none else PyValue.none
  | Option.none => PyValue.none

/-- `header_columns.get("ME rh", header_columns.get("ME", None))` followed by
the guarded read. -/
def tbnMeRh (hm : List (String × Nat)) (row : List PyValue) : PyValue :=
  match (List.lookup "ME rh" hm).orElse (fun _ => List.lookup "ME" hm) with
  | some c => if c < row.length then row.getD c PyValue.none else PyValue.none
  | Option.none => PyValue.none

/-- `row[col] if col is not None else None`: the unguarded per-unit cell
read (no length check in the source). -/
def unitGet (hm : List (String × Nat)) (row : List PyValue) (key : String) :
    Except String PyValue :=
  match List.lookup key hm with
  | some c => pyIndexV row c
  | Option.none => Except.ok PyValue.none

/-- One per-unit sibling record (`"Cyl. {n}"`). -/
def tbnUnitRecord (hm : List (String × Nat)) (row : List PyValue)
    (pd : Option String) (me_rh fuel : PyValue) (n : Nat) :
    Except String TBNRecord := do
  let fm ← unitGet hm row ("Fe magnetic " ++ toString n)
  let fc ← unitGet hm row ("Fe corrosive " ++ toString n)
  let ft ← unitGet hm row ("Fe total " ++ toString n)
  let rt ← unitGet hm row ("Residual TBN " ++ toString n)
  let ur ← unitGet hm row ("Unit " ++ toString n)
  Except.ok (TBNRecord.mk pd me_rh ("Cyl. " ++ toString n) fm fc ft rt ur
    PyValue.none fuel PyValue.none)

/-- The per-unit sibling records for the given unit numbers, in order. -/
def tbnUnitRecords (hm : List (String × Nat)) (row : List PyValue)
    (pd : Option String) (me_rh fuel : PyValue) :
    List Nat → Except String (List TBNRecord)
  | [] => Except.ok []
  | n :: ns => do
    let r ← tbnUnitRecord hm row pd me_rh fuel n
    let rs ← tbnUnitRecords hm row pd me_rh fuel ns
    Except.ok (r :: rs)

/-- The `"TBN Fed"` aggregate sibling record. -/
def tbnAggTbn (pd : Option String) (me_rh fuel tbnfed : PyValue) : TBNRecord :=
  { Date := pd, ME_RH := me_rh, Cylinder := "TBN Fed", Fe_Magnet := PyValue.none,
    Fe_Corrosion := PyValue.none, Fe_Total := PyValue.none,
    Residual_TBN := PyValue.none, Unit_RH := PyValue.none, TBN_Fed := tbnfed,
    Fuel_Sulph := fuel, ME_Load := PyValue.none }

/-- The `"ME Load"` aggregate sibling record. -/
def tbnAggLoad (pd : Option String) (me_rh fuel me_load : PyValue) : TBNRecord :=
  { Date := pd, ME_RH := me_rh, Cylinder := "ME Load", Fe_Magnet := PyValue.none,
    Fe_Corrosion := PyValue.none, Fe_Total := PyValue.none,
    Residual_TBN := PyValue.none, Unit_RH := PyValue.none,
    TBN_Fed := PyValue.none, Fuel_Sulph := fuel, ME_Load := me_load }

/-- One data-row iteration of `process_xlsx` in
`TBN_Fe_extract_onedrive.py`: skip on falsy date cell, parse the date
(without checking the result), read the shared scalars, then emit one
record per unit `1..max_cylinders` followed by the two aggregate records. -/
def processRowTBN (date_col : Nat) (hm : List (String × Nat))
    (row : List PyValue) : Except String (List TBNRecord) := do
  let dv ← pyIndexV row date_col
  if pyTruthy dv then
    let pd := parse_date dv
    let me_load := if 1 < row.length then row.getD 1 PyValue.none
      else PyValue.int 0
    let me_rh := tbnMeRh hm row
    let tbnfed := guardedGet hm row "TBN of blended oil fed to engine"
    let fuel := guardedGet hm row "Fuel Sulphur Content"
    let units ← tbnUnitRecords hm row pd me_rh fuel
      (List.range' 1 (detect_max_cylinders hm))
    Except.ok (units ++ [tbnAggTbn pd me_rh fuel tbnfed,
      tbnAggLoad pd me_rh fuel me_load])
  else
    Except.ok []

/-- `process_xlsx` of `TBN_Fe_extract_onedrive.py` over the iterated data
rows (rows 6.. of the sheet), concatenating each row's records. -/
def processXlsxTBN (date_col : Nat) (hm : List (String × Nat)) :
    List (List PyValue) → Except String (List TBNRecord)
  | [] => Except.ok []
  | r :: rs => do
    let recs ← processRowTBN date_col hm r
    let rest ← processXlsxTBN date_col hm rs
    Except.ok (recs ++ rest)

/-- One output record of the feedrate/load extractor. -/
structure FRRecord where
  VesselID : String
  Date : String
  ME_Load : PyValue
  CylinderOilFeedrate : PyValue
  ME_RH : PyValue
deriving DecidableEq

/-- The `ME rh`-or-`ME` fallback read of `Feedrate_Load_onedrive.py`
(unguarded subscripts). -/
def frMeRhValue (hm : List (String × Nat)) (row : List PyValue) :
    Except String PyValue :=
  match List.lookup "ME rh" hm with
  | some c => pyIndexV row c
  | Option.none =>
    match List.lookup "ME" hm with
    | some c => pyIndexV row c
    | Option.none => Except.ok PyValue.none

/-- The feedrate read of `Feedrate_Load_onedrive.py`:
`row[hm.get("Cylinder oil feedrate")]` when the target resolved (unguarded
subscript), else the default `0`. -/
def frCofValue (hm : List (String × Nat)) (row : List PyValue) :
    Except String PyValue :=
  match List.lookup "Cylinder oil feedrate" hm with
  | some c => pyIndexV row c
  | Option.none => Except.ok (PyValue.int 0)

/-- One data-row iteration of `process_xlsx` in
`Feedrate_Load_onedrive.py`: skip on falsy date cell or unparseable date,
then build the single output record.  `me_load_idx` is the `ME_load_index`
parameter (the call site passes the fixed column 1). -/
def processRowFR (date_col me_load_idx : Nat) (hm : List (String × Nat))
    (vessel : String) (row : List PyValue) : Except String (List FRRecord) := do
  let dv ← pyIndexV row date_col
  if pyTruthy dv then
    match parse_date dv with
    | some pd => do
      let me_rh ← frMeRhValue hm row
      let ml ← pyIndexV row me_load_idx
      let cof ← frCofValue hm row
      Except.ok [FRRecord.mk vessel pd (pyOr ml (PyValue.int 0)) cof
        (pyOr me_rh (PyValue.int 0))]
    | Option.none => Except.ok []
  else
    Except.ok []

/-- `process_xlsx` of `Feedrate_Load_onedrive.py` over the iterated data
rows. -/
def processXlsxFR (date_col me_load_idx : Nat) (hm : List (String × Nat))
    (vessel : String) : List (List PyValue) → Except String (List FRRecord)
  | [] => Except.ok []
  | r :: rs => do
    let recs ← processRowFR date_col me_load_idx hm vessel r
    let rest ← processXlsxFR date_col me_load_idx hm vessel rs
    Except.ok (recs ++ rest)

/-! ## Numeric cleaning

The cleaned value of one field of one record.  The TBN script runs
`astype(str)`, strips every whitespace character (`\s+` replaced by the
empty string, which also covers NBSP), maps a lone dash to missing, then
`pd.to_numeric(errors="coerce")` with no fill — failures stay null.  The
feedrate script runs `pd.to_numeric(errors="coerce").fillna(0)` directly on
the raw values — numeric strings may carry surrounding whitespace (the
underlying parser trims it) but any other failure, dashes and embedded
whitespace included, becomes `0`.  The numeric parser is modelled for
optionally signed decimal literals (scientific notation and `nan`/`inf`
literals do not occur in this data). -/

/-- Remove every whitespace character (`re.sub(r'\s+', '', s)`). -/
def stripAllPyWs (s : String) : String :=
  String.mk (s.data.filter (fun c => !pyIsSpace c))

/-- An unsigned decimal literal: `digits`, `digits.digits`, `digits.` or
`.digits`. -/
def parseUnsigned (l : List Char) : Option ℚ :=
  let ip := l.takeWhile Char.isDigit
  let rest := l.dropWhile Char.isDigit
  match rest with
  | [] => if ip = [] then Option.none else some (mkRat (natOfDigits ip) 1)
  | '.' :: fr =>
    if fr.all Char.isDigit ∧ (ip ≠ [] ∨ fr ≠ []) then
      some (mkRat (natOfDigits ip * 10 ^ fr.length + natOfDigits fr)
        (10 ^ fr.length))
    else Option.none
  | _ => Option.none

/-- A float-style decimal literal with optional sign and surrounding
whitespace allowed (as the pandas numeric parser accepts). -/
def parseNumQ (s : String) : Option ℚ :=
  match pyStrip s.data with
  | '-' :: rest => (parseUnsigned rest).map (fun q => -q)
  | '+' :: rest => parseUnsigned rest
  | l => parseUnsigned l

/-- The TBN script's cleaning of one numeric field: stringify, drop all
whitespace, lone dash means missing, parse failures stay null. -/
def cleanTBNField (v : PyValue) : Option ℚ :=
  let s := stripAllPyWs (pyStr v)
  if s = "-" then Option.none else parseNumQ s

/-- The feedrate script's cleaning of one numeric field:
`pd.to_numeric(errors="coerce").fillna(0)` on the raw value. -/
def cleanFRField (v : PyValue) : ℚ :=
  match v with
  | PyValue.int n => mkRat n 1
  | PyValue.str s => (parseNumQ s).getD 0
  | PyValue.none => 0
  | PyValue.date _ _ _ => 0


deriving instance DecidableEq for Except


/-! ## Header resolution order (claim C1) -/

/-- The last element of a list, as an `Option`. -/
def olast : List Nat → Option Nat
  | [] => Option.none
  | a :: l =>
    match olast l with
    | some x => some x
    | Option.none => some a

/-- The indices (within the first 100 columns) of the header cells whose
similarity against target `t` reaches the 0.60 threshold, in scan order. -/
def frMatches (cells : List PyValue) (t : String) : List Nat :=
  ((cells.take 100).enum.filter (fun p =>
    decide (mkRat 3 5 ≤
      string_similarity (normalize_string (pyCellStr p.2)) (normalize_string t)))).map
    Prod.fst

theorem lookup_dictUpsert_self (d : List (String × Nat)) (k : String) (v : Nat) :
    List.lookup k (dictUpsert d k v) = some v := by
  induction d with
  | nil => simp [dictUpsert, List.lookup]
  | cons p rest ih =>
    obtain ⟨a, b⟩ := p
    by_cases h : a = k
    · simp [dictUpsert, h, List.lookup]
    · have hb : (k == a) = false := by simp [Ne.symm h]
      simp [dictUpsert, h, List.lookup, hb, ih]

theorem lookup_dictUpsert_ne (d : List (String × Nat)) (k k' : String) (v : Nat)
    (h : k' ≠ k) : List.lookup k' (dictUpsert d k v) = List.lookup k' d := by
  induction d with
  | nil =>
    have hb : (k' == k) = false := by simp [h]
    simp [dictUpsert, List.lookup, hb]
  | cons p rest ih =>
    obtain ⟨a, b⟩ := p
    by_cases ha : a = k
    · subst ha
      have hb : (k' == a) = false := by simp [h]
      simp [dictUpsert, List.lookup, hb]
    · by_cases hk : k' = a
      · simp [dictUpsert, ha, List.lookup, hk]
      · have hb : (k' == a) = false := by simp [hk]
        simp [dictUpsert, ha, List.lookup, hb, ih]

theorem frCellTargets_lookup (csn : String) (i : Nat) (t : String) :
    ∀ (ts : List String) (d : List (String × Nat)),
    List.lookup t (frCellTargets csn i ts d) =
      if t ∈ ts ∧ mkRat 3 5 ≤ string_similarity csn (normalize_string t) then some i
      else List.lookup t d := by
  intro ts
  induction ts with
  | nil => intro d; simp [frCellTargets]
  | cons t' ts ih =>
    intro d
    simp only [frCellTargets]
    by_cases he : t' = t
    · subst he
      by_cases hs : mkRat 3 5 ≤ string_similarity csn (normalize_string t')
      · rw [if_pos hs, ih]
        by_cases hm : t' ∈ ts
        · simp [hm, hs]
        · simp [hm, hs, lookup_dictUpsert_self]
      · rw [if_neg hs, ih]
        simp [hs]
    · have hmem : t ∈ t' :: ts ↔ t ∈ ts := by
        simp [List.mem_cons, Ne.symm he]
      by_cases hs : mkRat 3 5 ≤ string_similarity csn (normalize_string t')
      · rw [if_pos hs, ih, lookup_dictUpsert_ne _ _ _ _ (Ne.symm he)]
        simp only [hmem]
      · rw [if_neg hs, ih]
        simp only [hmem]

theorem frScan_lookup (ts : List String) (t : String) (ht : t ∈ ts) :
    ∀ (pairs : List (Nat × PyValue)) (d : List (String × Nat)),
    List.lookup t (frScan ts pairs d) =
      match olast ((pairs.filter (fun p =>
          decide (mkRat 3 5 ≤ string_similarity
            (normalize_string (pyCellStr p.2)) (normalize_string t)))).map Prod.fst) with
      | some x => some x
      | Option.none => List.lookup t d := by
  intro pairs
  induction pairs with
  | nil => intro d; simp [frScan, olast]
  | cons p rest ih =>
    intro d
    obtain ⟨i, c⟩ := p
    by_cases hs : mkRat 3 5 ≤
        string_similarity (normalize_string (pyCellStr c)) (normalize_string t)
    · have hd := decide_eq_true hs
      simp only [frScan, ih, List.filter_cons, hd, if_true, List.map_cons]
      rw [frCellTargets_lookup]
      simp only [ht, hs, and_self, if_true]
      cases holast : olast ((rest.filter (fun p =>
          decide (mkRat 3 5 ≤ string_similarity
            (normalize_string (pyCellStr p.2)) (normalize_string t)))).map Prod.fst) with
      | none => simp [olast, holast]
      | some x => simp [olast, holast]
    · have hd := decide_eq_false hs
      simp only [frScan, ih, List.filter_cons, hd, if_false, List.map_cons]
      rw [frCellTargets_lookup]
      simp [ht, hs]

/-- Claim C1, amended: header resolution is last-match-wins per target.  For
every header row and every target in the list, the resolved entry is the
index of the rightmost cell among the first 100 whose similarity reaches
0.60 — a later matching cell overwrites the earlier assignment. -/
theorem c1_resolver_last_match (cells : List PyValue) (ts : List String)
    (t : String) (ht : t ∈ ts) :
    List.lookup t (find_value_columns_by_headers cells ts) =
      olast (frMatches cells t) := by
  unfold find_value_columns_by_headers frMatches
  rw [frScan_lookup ts t ht]
  cases holast : olast (((cells.take 100).enum.filter (fun p =>
      decide (mkRat 3 5 ≤ string_similarity
        (normalize_string (pyCellStr p.2)) (normalize_string t)))).map Prod.fst) with
  | none => simp [List.lookup]
  | some x => simp

/-- Witness for `c1_resolver_last_match` at a concrete header row with two
matching cells. -/
theorem c1_resolver_last_match_witness :
    List.lookup "ME load" (find_value_columns_by_headers
      [PyValue.str "ME load", PyValue.str "ME load"] ["ME load"]) =
      olast (frMatches [PyValue.str "ME load", PyValue.str "ME load"] "ME load") :=
  c1_resolver_last_match [PyValue.str "ME load", PyValue.str "ME load"]
    ["ME load"] "ME load" (by decide)

/-- Claim C1, counterexample: with the header row `["ME load", "ME load"]`
both cells match the target `"ME load"` (the match list is `[0, 1]`, so the
leftmost matching cell is column 0), yet the resolver returns column 1 —
the later cell overwrote the assignment. -/
theorem c1_counterexample :
    frMatches [PyValue.str "ME load", PyValue.str "ME load"] "ME load" = [0, 1] ∧
    List.lookup "ME load" (find_value_columns_by_headers
      [PyValue.str "ME load", PyValue.str "ME load"] ["ME load"]) = some 1 ∧
    some 1 ≠ (some 0 : Option Nat) := by decide

/-! ## Exact-match families (claim C6) -/

theorem mem_enumFrom_get_some (l : List PyValue) :
    ∀ (n i : Nat) (c : PyValue), (i, c) ∈ l.enumFrom n →
    n ≤ i ∧ l.get? (i - n) = some c := by
  induction l with
  | nil => intro n i c h; simp [List.enumFrom] at h
  | cons x xs ih =>
    intro n i c h
    simp only [List.enumFrom, List.mem_cons] at h
    rcases h with h | h
    · obtain ⟨h1, h2⟩ := Prod.mk.injEq .. ▸ h
      injection h with h1 h2
      subst h1; subst h2
      simp
    · obtain ⟨hle, hget⟩ := ih (n + 1) i c h
      refine ⟨Nat.le_of_succ_le hle, ?_⟩
      have : i - n = (i - (n + 1)) + 1 := by omega
      rw [this]
      simpa using hget

theorem mem_enum_get_some (l : List PyValue) (i : Nat) (c : PyValue)
    (h : (i, c) ∈ l.enum) : l.get? i = some c := by
  have := mem_enumFrom_get_some l 0 i c h
  simpa using this.2

theorem tbnCellTargets_exact (cs : String) (i : Nat) (t : String)
    (hex : isExactFamily t = true) :
    ∀ (ts : List String) (d : List (String × Nat)) (j : Nat),
    List.lookup t (tbnCellTargets cs i ts d) = some j →
    (j = i ∧ normalize_string t = normalize_string cs) ∨
      List.lookup t d = some j := by
  intro ts
  induction ts with
  | nil => intro d j h; exact Or.inr h
  | cons t' ts ih =>
    intro d j h
    simp only [tbnCellTargets] at h
    by_cases he' : isExactFamily t' = true
    · rw [if_pos he'] at h
      by_cases heq : normalize_string t' = normalize_string cs
      · rw [if_pos heq] at h
        by_cases htt : t' = t
        · subst htt
          rw [lookup_dictUpsert_self] at h
          injection h with h2
          exact Or.inl ⟨h2.symm, heq⟩
        · rw [lookup_dictUpsert_ne _ _ _ _ (Ne.symm htt)] at h
          exact Or.inr h
      · rw [if_neg heq] at h
        exact ih d j h
    · rw [if_neg he'] at h
      have htt : t' ≠ t := fun hcontra => he' (hcontra ▸ hex)
      rcases ih _ j h with h1 | h2
      · exact Or.inl h1
      · by_cases hs : mkRat 3 5 ≤ string_similarity cs (normalize_string t')
        · rw [if_pos hs, lookup_dictUpsert_ne _ _ _ _ (Ne.symm htt)] at h2
          exact Or.inr h2
        · rw [if_neg hs] at h2
          exact Or.inr h2

theorem tbnScan_exact (ts : List String) (t : String)
    (hex : isExactFamily t = true) (cells100 : List PyValue) :
    ∀ (pairs : List (Nat × PyValue)) (d : List (String × Nat)) (j : Nat),
    (∀ p ∈ pairs, cells100.get? p.1 = some p.2) →
    List.lookup t (tbnScan ts pairs d) = some j →
    (∃ c, cells100.get? j = some c ∧
      normalize_string t = normalize_string (pyCellStrStripped c)) ∨
    List.lookup t d = some j := by
  intro pairs
  induction pairs with
  | nil => intro d j _ h; exact Or.inr h
  | cons p rest ih =>
    intro d j hp h
    obtain ⟨i, c⟩ := p
    simp only [tbnScan] at h
    rcases ih _ j (fun q hq => hp q (List.mem_cons_of_mem _ hq)) h with h1 | h2
    · exact Or.inl h1
    · rcases tbnCellTargets_exact _ _ _ hex _ _ _ h2 with ⟨hj, hn⟩ | h3
      · subst hj
        exact Or.inl ⟨c, hp (j, c) (List.mem_cons_self _ _), hn⟩
      · exact Or.inr h3

/-- Claim C6: in the TBN resolver, a target of a per-unit repeated family
(name starting with `Fe magnetic`, `Fe corrosive`, `Fe total`,
`Residual TBN` or `Unit`) is only ever assigned a column whose stripped
cell text normalizes to exactly the target's normalized text — the fuzzy
0.60 threshold is never used for it; in particular a cell reading
`"Fe magnetic 10"` is never assigned to the target `"Fe magnetic 1"`. -/
theorem c6_exact_family_matching (cells : List PyValue) (ts : List String)
    (t : String) (j : Nat) (hex : isExactFamily t = true)
    (h : List.lookup t (tbn_find_value_columns cells ts) = some j) :
    (∃ c, (cells.take 100).get? j = some c ∧
      normalize_string t = normalize_string (pyCellStrStripped c)) ∧
    (t = "Fe magnetic 1" → ∀ c, (cells.take 100).get? j = some c →
      pyCellStrStripped c ≠ "Fe magnetic 10") := by
  have hmem : ∀ p ∈ (cells.take 100).enum, (cells.take 100).get? p.1 = some p.2 := by
    intro p hp
    obtain ⟨i, c⟩ := p
    exact mem_enum_get_some _ _ _ hp
  have hmain := tbnScan_exact ts t hex (cells.take 100)
    (cells.take 100).enum [] j hmem h
  rcases hmain with hc | habs
  · refine ⟨hc, ?_⟩
    rintro rfl c hgc hstr
    obtain ⟨c0, hg0, hn0⟩ := hc
    rw [hgc] at hg0
    injection hg0 with hcc
    rw [← hcc, hstr] at hn0
    exact absurd hn0 (by decide)
  · simp [List.lookup] at habs

/-! ## Per-unit explosion and row totality (claims C3 and C10) -/

theorem exceptBind_ok {α β : Type} (a : α) (f : α → Except String β) :
    ((Except.ok a : Except String α) >>= f) = f a := rfl

theorem exceptBind_err {α β : Type} (e : String) (f : α → Except String β) :
    ((Except.error e : Except String α) >>= f) = Except.error e := rfl

/-- The five per-unit target names of unit `n`. -/
def tbnUnitKeys (n : Nat) : List String :=
  [("Fe magnetic " ++ toString n), ("Fe corrosive " ++ toString n),
    ("Fe total " ++ toString n), ("Residual TBN " ++ toString n),
    ("Unit " ++ toString n)]

/-- Decidable in-bounds condition: if the target resolved to a column, that
column is inside the row. -/
def colOk (hm : List (String × Nat)) (row : List PyValue) (k : String) : Bool :=
  match List.lookup k hm with
  | some c => decide (c < row.length)
  | Option.none => true

theorem colOk_lt (hm : List (String × Nat)) (row : List PyValue) (k : String)
    (h : colOk hm row k = true) :
    ∀ c, List.lookup k hm = some c → c < row.length := by
  intro c hc
  unfold colOk at h
  rw [hc] at h
  exact of_decide_eq_true h

theorem unitGet_ok (hm : List (String × Nat)) (row : List PyValue) (k : String)
    (hb : ∀ c, List.lookup k hm = some c → c < row.length) :
    ∃ v, unitGet hm row k = Except.ok v := by
  cases hl : List.lookup k hm with
  | none => exact ⟨PyValue.none, by simp [unitGet, hl]⟩
  | some c =>
    have hc := hb c hl
    cases hg : row.get? c with
    | none =>
      have := List.get?_eq_none.mp hg
      omega
    | some v =>
      have hg2 : row[c]? = some v := by
        rw [← List.get?_eq_getElem?]
        exact hg
      exact ⟨v, by simp [unitGet, pyIndexV, hl, hg, hg2]⟩

theorem tbnUnitRecord_ok (hm : List (String × Nat)) (row : List PyValue)
    (pd : Option String) (me_rh fuel : PyValue) (n : Nat)
    (hb : ∀ k ∈ tbnUnitKeys n, ∀ c, List.lookup k hm = some c → c < row.length) :
    ∃ r, tbnUnitRecord hm row pd me_rh fuel n = Except.ok r ∧
      r.Date = pd ∧ r.ME_RH = me_rh ∧ r.Fuel_Sulph = fuel ∧
      r.TBN_Fed = PyValue.none := by
  obtain ⟨fm, hfm⟩ := unitGet_ok hm row ("Fe magnetic " ++ toString n)
    (hb _ (by simp [tbnUnitKeys]))
  obtain ⟨fc, hfc⟩ := unitGet_ok hm row ("Fe corrosive " ++ toString n)
    (hb _ (by simp [tbnUnitKeys]))
  obtain ⟨ft, hft⟩ := unitGet_ok hm row ("Fe total " ++ toString n)
    (hb _ (by simp [tbnUnitKeys]))
  obtain ⟨rt, hrt⟩ := unitGet_ok hm row ("Residual TBN " ++ toString n)
    (hb _ (by simp [tbnUnitKeys]))
  obtain ⟨ur, hur⟩ := unitGet_ok hm row ("Unit " ++ toString n)
    (hb _ (by simp [tbnUnitKeys]))
  refine ⟨TBNRecord.mk pd me_rh ("Cyl. " ++ toString n) fm fc ft rt ur
    PyValue.none fuel PyValue.none, ?_, rfl, rfl, rfl, rfl⟩
  unfold tbnUnitRecord
  simp only [hfm, hfc, hft, hrt, hur, exceptBind_ok]

theorem tbnUnitRecords_ok (hm : List (String × Nat)) (row : List PyValue)
    (pd : Option String) (me_rh fuel : PyValue) :
    ∀ ns : List Nat,
    (∀ n ∈ ns, ∀ k ∈ tbnUnitKeys n, ∀ c, List.lookup k hm = some c → c < row.length) →
    ∃ rs, tbnUnitRecords hm row pd me_rh fuel ns = Except.ok rs ∧
      rs.length = ns.length ∧
      ∀ r ∈ rs, r.Date = pd ∧ r.ME_RH = me_rh ∧ r.Fuel_Sulph = fuel ∧
        r.TBN_Fed = PyValue.none := by
  intro ns
  induction ns with
  | nil => intro _; exact ⟨[], rfl, rfl, by simp⟩
  | cons n ns ih =>
    intro hb
    obtain ⟨r, hr, hd1, hd2, hd3, hd4⟩ := tbnUnitRecord_ok hm row pd me_rh fuel n
      (hb n (List.mem_cons_self _ _))
    obtain ⟨rs, hrs, hlen, hall⟩ := ih (fun m hm' => hb m (List.mem_cons_of_mem _ hm'))
    refine ⟨r :: rs, ?_, by simp [hlen], ?_⟩
    · simp only [tbnUnitRecords, hr, hrs, exceptBind_ok]
    · intro x hx
      rcases List.mem_cons.mp hx with rfl | hx
      · exact ⟨hd1, hd2, hd3, hd4⟩
      · exact hall x hx

/-- Shared success lemma for `processRowTBN`: a row whose date cell exists
and is truthy, with all resolved per-unit columns in bounds, yields the unit
records followed by the two aggregate records.  Note no condition at all is
needed on the ME-rh, TBN-fed or fuel-sulphur columns: those reads are
guarded by `col < len(row)` in the source. -/
theorem processRowTBN_ok (hm : List (String × Nat)) (row : List PyValue)
    (dv : PyValue) (hget : row.get? 0 = some dv) (htr : pyTruthy dv = true)
    (hb : ∀ n ∈ List.range' 1 (detect_max_cylinders hm), ∀ k ∈ tbnUnitKeys n,
      colOk hm row k = true) :
    ∃ units, processRowTBN 0 hm row = Except.ok (units ++
        [tbnAggTbn (parse_date dv) (tbnMeRh hm row)
          (guardedGet hm row "Fuel Sulphur Content")
          (guardedGet hm row "TBN of blended oil fed to engine"),
         tbnAggLoad (parse_date dv) (tbnMeRh hm row)
          (guardedGet hm row "Fuel Sulphur Content")
          (if 1 < row.length then row.getD 1 PyValue.none else PyValue.int 0)]) ∧
      units.length = detect_max_cylinders hm ∧
      ∀ r ∈ units, r.Date = parse_date dv ∧ r.ME_RH = tbnMeRh hm row ∧
        r.Fuel_Sulph = guardedGet hm row "Fuel Sulphur Content" ∧
        r.TBN_Fed = PyValue.none := by
  obtain ⟨rs, hrs, hlen, hall⟩ := tbnUnitRecords_ok hm row (parse_date dv)
    (tbnMeRh hm row) (guardedGet hm row "Fuel Sulphur Content")
    (List.range' 1 (detect_max_cylinders hm))
    (fun n hn k hk => colOk_lt _ _ _ (hb n hn k hk))
  refine ⟨rs, ?_, by simpa using hlen, hall⟩
  unfold processRowTBN
  simp only [pyIndexV, hget, exceptBind_ok, htr, if_true, hrs]

theorem pyIndexV_eq_ok (row : List PyValue) (i : Nat) (v : PyValue)
    (h : row.get? i = some v) : pyIndexV row i = Except.ok v := by
  unfold pyIndexV
  rw [h]

theorem pyIndexV_eq_err (row : List PyValue) (i : Nat)
    (h : row.get? i = Option.none) : pyIndexV row i = Except.error "IndexError" := by
  unfold pyIndexV
  rw [h]

theorem pyIndexV_ok_inv (row : List PyValue) (i : Nat) (v : PyValue)
    (h : pyIndexV row i = Except.ok v) : row.get? i = some v := by
  cases hg : row.get? i with
  | none =>
    rw [pyIndexV_eq_err _ _ hg] at h
    exact Except.noConfusion h
  | some w =>
    rw [pyIndexV_eq_ok _ _ _ hg] at h
    injection h with h2
    rw [← h2]

theorem frCofValue_none (hm : List (String × Nat)) (row : List PyValue)
    (h : List.lookup "Cylinder oil feedrate" hm = Option.none) :
    frCofValue hm row = Except.ok (PyValue.int 0) := by
  unfold frCofValue
  rw [h]

theorem frCofValue_some (hm : List (String × Nat)) (row : List PyValue) (c : Nat)
    (h : List.lookup "Cylinder oil feedrate" hm = some c) :
    frCofValue hm row = pyIndexV row c := by
  unfold frCofValue
  rw [h]

/-- Shared shape lemma for `processRowFR`: a successfully processed row with
a truthy, parseable date yields exactly one record, whose `ME_Load` is read
from column `mli` (the fixed `ME_load_index` argument), whose
`CylinderOilFeedrate` is the raw cell of the resolved feedrate column (or
the default `0` when unresolved), and whose `ME_RH` is the `or 0` of the
resolved ME-rh read. -/
theorem processRowFR_shape (dc mli : Nat) (hm : List (String × Nat))
    (v : String) (row : List PyValue) (dv : PyValue) (pd : String)
    (recs : List FRRecord) (hget : row.get? dc = some dv)
    (htr : pyTruthy dv = true) (hpd : parse_date dv = some pd)
    (h : processRowFR dc mli hm v row = Except.ok recs) :
    ∃ w mlv cof, frMeRhValue hm row = Except.ok w ∧ row.get? mli = some mlv ∧
      recs = [FRRecord.mk v pd (pyOr mlv (PyValue.int 0)) cof
        (pyOr w (PyValue.int 0))] ∧
      (List.lookup "Cylinder oil feedrate" hm = Option.none → cof = PyValue.int 0) ∧
      (∀ c, List.lookup "Cylinder oil feedrate" hm = some c →
        row.get? c = some cof) := by
  unfold processRowFR at h
  rw [pyIndexV_eq_ok _ _ _ hget, exceptBind_ok, if_pos htr] at h
  simp only [hpd] at h
  cases hmr : frMeRhValue hm row with
  | error e =>
    rw [hmr, exceptBind_err] at h
    exact Except.noConfusion h
  | ok w =>
    rw [hmr, exceptBind_ok] at h
    cases hml : row.get? mli with
    | none =>
      rw [pyIndexV_eq_err _ _ hml, exceptBind_err] at h
      exact Except.noConfusion h
    | some mlv =>
      rw [pyIndexV_eq_ok _ _ _ hml, exceptBind_ok] at h
      cases hcv : frCofValue hm row with
      | error e =>
        rw [hcv, exceptBind_err] at h
        exact Except.noConfusion h
      | ok cv =>
        rw [hcv, exceptBind_ok] at h
        injection h with h2
        refine ⟨w, mlv, cv, rfl, rfl, h2.symm, ?_, ?_⟩
        · intro hnone
          rw [frCofValue_none hm row hnone] at hcv
          injection hcv with h3
          exact h3.symm
        · intro c hc
          rw [frCofValue_some hm row c hc] at hcv
          exact pyIndexV_ok_inv _ _ _ hcv

/-- Claim C3: in the per-unit explosion schema (TBN extractor), every data
row that passes the date check yields `detect_max_cylinders + 2` sibling
records: one per unit `1..max` plus the `"TBN Fed"` and `"ME Load"`
aggregates, all sharing the same parsed date and shared scalars, the
aggregates carrying null unit fields; in the non-exploding schema (feedrate
extractor) each such row yields exactly 1 record. -/
theorem c3_explosion_counts :
    (∀ (hm : List (String × Nat)) (row : List PyValue) (dv : PyValue) (pd : String),
      row.get? 0 = some dv → pyTruthy dv = true → parse_date dv = some pd →
      (∀ n ∈ List.range' 1 (detect_max_cylinders hm), ∀ k ∈ tbnUnitKeys n,
        colOk hm row k = true) →
      ∃ units recs, processRowTBN 0 hm row = Except.ok recs ∧
        recs = units ++
          [tbnAggTbn (some pd) (tbnMeRh hm row)
            (guardedGet hm row "Fuel Sulphur Content")
            (guardedGet hm row "TBN of blended oil fed to engine"),
          tbnAggLoad (some pd) (tbnMeRh hm row)
            (guardedGet hm row "Fuel Sulphur Content")
            (if 1 < row.length then row.getD 1 PyValue.none else PyValue.int 0)] ∧
        recs.length = detect_max_cylinders hm + 2 ∧
        units.length = detect_max_cylinders hm ∧
        (∀ r ∈ units, r.Date = some pd ∧ r.ME_RH = tbnMeRh hm row ∧
          r.Fuel_Sulph = guardedGet hm row "Fuel Sulphur Content" ∧
          r.TBN_Fed = PyValue.none)) ∧
    (∀ (pd' : Option String) (m f x : PyValue),
      (tbnAggTbn pd' m f x).Fe_Magnet = PyValue.none ∧
      (tbnAggTbn pd' m f x).Unit_RH = PyValue.none ∧
      (tbnAggTbn pd' m f x).ME_Load = PyValue.none ∧
      (tbnAggLoad pd' m f x).Fe_Magnet = PyValue.none ∧
      (tbnAggLoad pd' m f x).Unit_RH = PyValue.none ∧
      (tbnAggLoad pd' m f x).TBN_Fed = PyValue.none) ∧
    (∀ (dc mli : Nat) (hm : List (String × Nat)) (v : String)
      (row : List PyValue) (dv : PyValue) (pd : String) (recs : List FRRecord),
      row.get? dc = some dv → pyTruthy dv = true → parse_date dv = some pd →
      processRowFR dc mli hm v row = Except.ok recs → recs.length = 1) := by
  refine ⟨?_, ?_, ?_⟩
  · intro hm row dv pd hget htr hpd hb
    obtain ⟨units, hrun, hlen, hall⟩ := processRowTBN_ok hm row dv hget htr hb
    rw [hpd] at hrun hall
    refine ⟨units, _, hrun, rfl, ?_, hlen, hall⟩
    simp [hlen]
  · intro pd' m f x
    exact ⟨rfl, rfl, rfl, rfl, rfl, rfl⟩
  · intro dc mli hm v row dv pd recs hget htr hpd h
    obtain ⟨w, mlv, cof, _, _, hrecs, _, _⟩ :=
      processRowFR_shape dc mli hm v row dv pd recs hget htr hpd h
    rw [hrecs]
    rfl

/-- Witness for `c3_explosion_counts`: a sheet with `"Unit 2"` resolved to
column 1 (so `max = 2`) and the dated row `["05/03/24", 4]`. -/
theorem c3_explosion_counts_witness :
    (∃ units recs,
      processRowTBN 0 [("Unit 2", 1)] [PyValue.str "05/03/24", PyValue.int 4] =
        Except.ok recs ∧
      recs = units ++
        [tbnAggTbn (some "2024-03-05")
          (tbnMeRh [("Unit 2", 1)] [PyValue.str "05/03/24", PyValue.int 4])
          (guardedGet [("Unit 2", 1)] [PyValue.str "05/03/24", PyValue.int 4]
            "Fuel Sulphur Content")
          (guardedGet [("Unit 2", 1)] [PyValue.str "05/03/24", PyValue.int 4]
            "TBN of blended oil fed to engine"),
        tbnAggLoad (some "2024-03-05")
          (tbnMeRh [("Unit 2", 1)] [PyValue.str "05/03/24", PyValue.int 4])
          (guardedGet [("Unit 2", 1)] [PyValue.str "05/03/24", PyValue.int 4]
            "Fuel Sulphur Content")
          (if 1 < ([PyValue.str "05/03/24", PyValue.int 4] : List PyValue).length
            then ([PyValue.str "05/03/24", PyValue.int 4] : List PyValue).getD 1
              PyValue.none
            else PyValue.int 0)] ∧
      recs.length = detect_max_cylinders [("Unit 2", 1)] + 2 ∧
      units.length = detect_max_cylinders [("Unit 2", 1)] ∧
      (∀ r ∈ units, r.Date = some "2024-03-05" ∧
        r.ME_RH = tbnMeRh [("Unit 2", 1)] [PyValue.str "05/03/24", PyValue.int 4] ∧
        r.Fuel_Sulph = guardedGet [("Unit 2", 1)]
          [PyValue.str "05/03/24", PyValue.int 4] "Fuel Sulphur Content" ∧
        r.TBN_Fed = PyValue.none)) := by
  exact c3_explosion_counts.1 [("Unit 2", 1)]
    [PyValue.str "05/03/24", PyValue.int 4] (PyValue.str "05/03/24")
    "2024-03-05" (by decide) (by decide) (by decide) (by decide)

/-- Claim C10, amended: in the TBN extractor, the reads guarded by a
`col < len(row)` check (ME-rh, TBN-fed, fuel-sulphur, and the ME-load read
guarded by `len(row) > 1`) never raise on short rows, so a row whose date
cell exists and whose resolved per-unit columns are in bounds always
processes successfully no matter where those guarded targets resolved; the
per-unit reads and the date read themselves, and every read in the feedrate
extractor, are unguarded and raise `IndexError` on rows shorter than the
index (see the counterexample). -/
theorem c10_guarded_reads_total (hm : List (String × Nat)) (row : List PyValue)
    (dv : PyValue) (hget : row.get? 0 = some dv)
    (hb : ∀ n ∈ List.range' 1 (detect_max_cylinders hm), ∀ k ∈ tbnUnitKeys n,
      colOk hm row k = true) :
    ∃ recs, processRowTBN 0 hm row = Except.ok recs := by
  cases htr : pyTruthy dv with
  | false =>
    refine ⟨[], ?_⟩
    unfold processRowTBN
    rw [pyIndexV_eq_ok _ _ _ hget, exceptBind_ok, if_neg]
    simp [htr]
  | true =>
    obtain ⟨units, hrun, _, _⟩ := processRowTBN_ok hm row dv hget htr hb
    exact ⟨_, hrun⟩

/-- Witness for `c10_guarded_reads_total`: the ME-rh target resolved to
column 99 while the row has a single cell — the guarded read yields null
instead of raising. -/
theorem c10_guarded_reads_total_witness :
    ∃ recs, processRowTBN 0 [("ME rh", 99)] [PyValue.str "1/1/24"] =
      Except.ok recs :=
  c10_guarded_reads_total [("ME rh", 99)] [PyValue.str "1/1/24"]
    (PyValue.str "1/1/24") (by decide) (by decide)

/-- Claim C10, counterexample: an unguarded out-of-range read raises.  In
the TBN extractor a resolved per-unit column (`"Fe magnetic 1"` at column 5)
beyond a short row raises `IndexError`; in the feedrate extractor the
resolved ME-rh column (7) beyond a short row also raises. -/
theorem c10_counterexample :
    processRowTBN 0 [("Fe magnetic 1", 5)] [PyValue.str "1/1/24"] =
      Except.error "IndexError" ∧
    processRowFR 0 1 [("ME rh", 7)] "V" [PyValue.str "05/03/24"] =
      Except.error "IndexError" := by decide

/-! ## Fixed scalar field reads (claim C4) -/

theorem lookup_cons_ne {β : Type} (k a : String) (b : β) (l : List (String × β))
    (h : k ≠ a) : List.lookup k ((a, b) :: l) = List.lookup k l := by
  have hb : (k == a) = false := by simp [h]
  simp [List.lookup, hb]

theorem frMeRhValue_cons_meload (hm : List (String × Nat)) (row : List PyValue)
    (i : Nat) : frMeRhValue (("ME load", i) :: hm) row = frMeRhValue hm row := by
  unfold frMeRhValue
  rw [lookup_cons_ne _ _ _ _ (by decide), lookup_cons_ne _ _ _ _ (by decide)]

theorem frMeRhValue_some_rh (hm : List (String × Nat)) (row : List PyValue)
    (c : Nat) (h : List.lookup "ME rh" hm = some c) :
    frMeRhValue hm row = pyIndexV row c := by
  unfold frMeRhValue
  rw [h]

theorem frCofValue_cons_meload (hm : List (String × Nat)) (row : List PyValue)
    (i : Nat) : frCofValue (("ME load", i) :: hm) row = frCofValue hm row := by
  unfold frCofValue
  rw [lookup_cons_ne _ _ _ _ (by decide)]

/-- Claim C4, amended: the feedrate and running-hours scalars are read via
the header map with their configured defaults, but the ME-load value is read
from the fixed `ME_load_index` column (1 at the call site), not from the
column resolved for the `"ME load"` target: the resolved `"ME load"` entry
is never consulted. -/
theorem c4_scalar_field_reads :
    (∀ (hm : List (String × Nat)) (v : String) (row : List PyValue)
      (dv : PyValue) (pd : String) (recs : List FRRecord),
      row.get? 0 = some dv → pyTruthy dv = true → parse_date dv = some pd →
      processRowFR 0 1 hm v row = Except.ok recs →
      ∃ mlv, row.get? 1 = some mlv ∧
        ∀ r ∈ recs, r.ME_Load = pyOr mlv (PyValue.int 0)) ∧
    (∀ (hm : List (String × Nat)) (i : Nat) (v : String) (row : List PyValue),
      processRowFR 0 1 (("ME load", i) :: hm) v row =
        processRowFR 0 1 hm v row) ∧
    (∀ (hm : List (String × Nat)) (v : String) (row : List PyValue)
      (dv : PyValue) (pd : String) (recs : List FRRecord),
      row.get? 0 = some dv → pyTruthy dv = true → parse_date dv = some pd →
      List.lookup "Cylinder oil feedrate" hm = Option.none →
      processRowFR 0 1 hm v row = Except.ok recs →
      ∀ r ∈ recs, r.CylinderOilFeedrate = PyValue.int 0) ∧
    (∀ (hm : List (String × Nat)) (v : String) (row : List PyValue)
      (dv : PyValue) (pd : String) (recs : List FRRecord) (c : Nat) (w : PyValue),
      row.get? 0 = some dv → pyTruthy dv = true → parse_date dv = some pd →
      List.lookup "ME rh" hm = some c → row.get? c = some w →
      processRowFR 0 1 hm v row = Except.ok recs →
      ∀ r ∈ recs, r.ME_RH = pyOr w (PyValue.int 0)) := by
  refine ⟨?_, ?_, ?_, ?_⟩
  · intro hm v row dv pd recs hget htr hpd h
    obtain ⟨w, mlv, cof, _, hml, hrecs, _, _⟩ :=
      processRowFR_shape 0 1 hm v row dv pd recs hget htr hpd h
    refine ⟨mlv, hml, ?_⟩
    intro r hr
    rw [hrecs] at hr
    rcases List.mem_singleton.mp hr with rfl
    rfl
  · intro hm i v row
    unfold processRowFR
    simp only [frMeRhValue_cons_meload, frCofValue_cons_meload]
  · intro hm v row dv pd recs hget htr hpd hnone h
    obtain ⟨w, mlv, cof, _, _, hrecs, hdef, _⟩ :=
      processRowFR_shape 0 1 hm v row dv pd recs hget htr hpd h
    intro r hr
    rw [hrecs] at hr
    rcases List.mem_singleton.mp hr with rfl
    simpa using hdef hnone
  · intro hm v row dv pd recs c w hget htr hpd hc hw h
    obtain ⟨w', mlv, cof, hmr, _, hrecs, _, _⟩ :=
      processRowFR_shape 0 1 hm v row dv pd recs hget htr hpd h
    have hw' : w' = w := by
      rw [frMeRhValue_some_rh hm row c hc, pyIndexV_eq_ok _ _ _ hw] at hmr
      injection hmr with h2
      exact h2.symm
    intro r hr
    rw [hrecs] at hr
    rcases List.mem_singleton.mp hr with rfl
    rw [← hw']

/-- Witness for `c4_scalar_field_reads` at a sheet where `"ME load"`
resolved to column 2 while the row holds 7 in column 1 and 99 in column 2. -/
theorem c4_scalar_field_reads_witness :
    ∃ mlv, ([PyValue.str "05/03/24", PyValue.int 7, PyValue.int 99] :
        List PyValue).get? 1 = some mlv ∧
      ∀ r ∈ [FRRecord.mk "V" "2024-03-05" (PyValue.int 7) (PyValue.int 0)
          (PyValue.int 0)], r.ME_Load = pyOr mlv (PyValue.int 0) :=
  c4_scalar_field_reads.1 [("ME load", 2)] "V"
    [PyValue.str "05/03/24", PyValue.int 7, PyValue.int 99]
    (PyValue.str "05/03/24") "2024-03-05"
    [FRRecord.mk "V" "2024-03-05" (PyValue.int 7) (PyValue.int 0) (PyValue.int 0)]
    (by decide) (by decide) (by decide) (by decide)

/-- Claim C4, counterexample: headers resolve `"ME load"` to column 2, the
data row carries 7 in column 1 and 99 in column 2, and the extracted
`ME_Load` is 7 — the fixed column 1 — not the 99 sitting in the resolved
`"ME load"` column. -/
theorem c4_counterexample :
    List.lookup "ME load" (find_value_columns_by_headers
      [PyValue.str "xxxx", PyValue.str "yyyy", PyValue.str "ME load"]
      ["ME load", "Cylinder oil feedrate", "ME rh", "ME"]) = some 2 ∧
    ([PyValue.str "05/03/24", PyValue.int 7, PyValue.int 99] :
      List PyValue).get? 2 = some (PyValue.int 99) ∧
    processRowFR 0 1 (find_value_columns_by_headers
      [PyValue.str "xxxx", PyValue.str "yyyy", PyValue.str "ME load"]
      ["ME load", "Cylinder oil feedrate", "ME rh", "ME"]) "V"
      [PyValue.str "05/03/24", PyValue.int 7, PyValue.int 99] =
      Except.ok [FRRecord.mk "V" "2024-03-05" (PyValue.int 7) (PyValue.int 0)
        (PyValue.int 0)] ∧
    PyValue.int 7 ≠ PyValue.int 99 := by decide

/-! ## Row skipping on unparseable dates (claim C2) -/

/-- Claim C2: the TBN extractor does not skip rows whose date cell is
non-empty but unparseable.  At the failing input — a sheet whose single
data row has the date cell `"n/a"` — the date is truthy, `parse_date`
returns null, yet the row still contributes two records (with a null
`Date`), whereas the sheet with that row removed contributes zero; the
feedrate extractor skips the same row as the claim describes. -/
theorem c2_unparsed_date_row_bug :
    pyTruthy (PyValue.str "n/a") = true ∧
    parse_date (PyValue.str "n/a") = Option.none ∧
    processXlsxTBN 0 [("ME", 5)] [[PyValue.str "n/a"]] =
      Except.ok [tbnAggTbn Option.none PyValue.none PyValue.none PyValue.none,
        tbnAggLoad Option.none PyValue.none PyValue.none (PyValue.int 0)] ∧
    processXlsxTBN 0 [("ME", 5)] [] = Except.ok [] ∧
    processRowFR 0 1 [("ME", 5)] "V" [PyValue.str "n/a"] = Except.ok [] := by
  decide

/-! ## Date parsing (claim C5) -/

/-- One fixed-width alternative of the claim's full-string date shape. -/
def shapeAt (l : List Char) (dl ml yl : Nat) : Bool :=
  decide (l.length = dl + ml + yl + 2) &&
  (l.take dl).all Char.isDigit &&
  (match l.drop dl with
    | c :: _ => decide (c = '/' ∨ c = '-' ∨ c = '.')
    | [] => false) &&
  ((l.drop (dl + 1)).take ml).all Char.isDigit &&
  (match l.drop (dl + 1 + ml) with
    | c :: _ => decide (c = '/' ∨ c = '-' ∨ c = '.')
    | [] => false) &&
  (l.drop (dl + ml + 2)).all Char.isDigit

/-- Modelled from the claim text (spec side): whether the whole string is of
the form `D[sep]M[sep]Y` with `D`, `M` of 1-2 digits and `Y` of exactly 2
or 4 digits. -/
def specDateShape (s : String) : Bool :=
  [1, 2].any (fun dl => [1, 2].any (fun ml => [2, 4].any (fun yl =>
    shapeAt s.data dl ml yl)))

/-- Claim C5, counterexample: `"05/03/2024abc"` is not of the claimed shape
(so the claim requires `null`), yet the parser accepts it, because
`re.match` anchors only at the start and ignores trailing input. -/
theorem c5_counterexample :
    specDateShape "05/03/2024abc" = false ∧
    parse_date (PyValue.str "05/03/2024abc") = some "2024-03-05" ∧
    some "2024-03-05" ≠ (Option.none : Option String) := by decide

/-- Claim C5, amended: native dates format directly; strings are matched
against `D[sep]M[sep]Y` as a prefix (trailing characters are ignored) with
the year group taken greedily as 2 to 4 digits (`20` prefixed only when it
has exactly 2, and `strptime`'s four-digit `%Y` then rejects the 3-digit
case), interpreted day-first, null on invalid calendar dates, and null
(never an exception) on everything else. -/
theorem c5_date_parse_behaviour :
    (∀ y m d : Nat, parse_date (PyValue.date y m d) = some (fmtYMD y m d)) ∧
    parse_date (PyValue.str "05/03/24") = some "2024-03-05" ∧
    parse_date (PyValue.str "2019-13-40") = Option.none ∧
    parse_date (PyValue.str "5/13/2024") = Option.none ∧
    parse_date (PyValue.str "29/02/2023") = Option.none ∧
    parse_date (PyValue.str "29/02/2024") = some "2024-02-29" ∧
    parse_date (PyValue.str "05/03/2024abc") = some "2024-03-05" ∧
    parse_date (PyValue.str "5/3/202") = Option.none ∧
    parse_date (PyValue.str "1/2/20245") = some "2024-02-01" ∧
    parse_date (PyValue.str "") = Option.none ∧
    parse_date PyValue.none = Option.none ∧
    parse_date (PyValue.int 20240305) = Option.none :=
  ⟨fun _ _ _ => rfl, by decide⟩

/-! ## Numeric coercion (claim C7) -/

/-- Modelled from the claim text (spec side): the claimed cleaning of a
zero-default field — strip embedded whitespace, treat a lone dash as
missing, parse, substitute 0 on failure. -/
def specZeroDefaultClean (v : PyValue) : ℚ :=
  let s := stripAllPyWs (pyStr v)
  if s = "-" then 0 else (parseNumQ s).getD 0

theorem stripAllPyWs_idem (s : String) :
    stripAllPyWs (stripAllPyWs s) = stripAllPyWs s := by
  unfold stripAllPyWs
  simp [List.filter_filter]

/-- Claim C7, counterexample: on the zero-default (feedrate) dataset
embedded whitespace is NOT stripped: `"1 2.5"` cleans to `0`, while the
claimed strip-then-parse process yields `12.5`. -/
theorem c7_counterexample :
    cleanFRField (PyValue.str "1 2.5") = 0 ∧
    specZeroDefaultClean (PyValue.str "1 2.5") = mkRat 25 2 ∧
    (0 : ℚ) ≠ mkRat 25 2 := by decide

/-- Claim C7, amended: the null-preserving (TBN) cleaning strips all
embedded whitespace (its result depends only on the whitespace-free
residue), maps a lone dash and any parse failure to null; the zero-default
(feedrate) cleaning parses the raw value directly — surrounding whitespace
is tolerated by the parser but dashes, garbage and embedded whitespace all
become 0.  The claim's listed example triple holds for both datasets. -/
theorem c7_numeric_coercion :
    (∀ s : String, cleanTBNField (PyValue.str s) =
      cleanTBNField (PyValue.str (stripAllPyWs s))) ∧
    cleanTBNField (PyValue.str " 12.5 ") = some (mkRat 25 2) ∧
    cleanTBNField (PyValue.str "-") = Option.none ∧
    cleanTBNField (PyValue.str " - ") = Option.none ∧
    cleanTBNField (PyValue.str "abc") = Option.none ∧
    cleanTBNField (PyValue.str "1 2.5") = some (mkRat 25 2) ∧
    cleanTBNField PyValue.none = Option.none ∧
    cleanFRField (PyValue.str " 12.5 ") = mkRat 25 2 ∧
    cleanFRField (PyValue.str "-") = 0 ∧
    cleanFRField (PyValue.str "abc") = 0 ∧
    cleanFRField (PyValue.str "1 2.5") = 0 ∧
    cleanFRField PyValue.none = 0 := by
  refine ⟨?_, by decide⟩
  intro s
  unfold cleanTBNField
  simp only [pyStr, stripAllPyWs_idem]

/-! ## Similarity ratio properties (claim C8)

Validity invariants of `find_longest_match` (the returned block lies inside
the requested ranges), giving the `[0, 1]` bounds of the ratio, and the
diagonal invariant on identical inputs, giving reflexivity. -/

/-- The state is either the untouched initial state or a block inside the
ranges. -/
def StOK (alo ahi blo bhi : Nat) (st : FLMBest) : Prop :=
  st = ⟨alo, blo, 0⟩ ∨
  (1 ≤ st.sz ∧ alo ≤ st.bi ∧ st.bi + st.sz ≤ ahi ∧ blo ≤ st.bj ∧
    st.bj + st.sz ≤ bhi)

/-- Bounds on a `j2len` row: run lengths cannot exceed the extent of either
range (`n` bounds the number of processed rows above `alo`). -/
def J2OK (alo blo n : Nat) (m : List (Nat × Nat)) : Prop :=
  ∀ j v, List.lookup j m = some v → blo ≤ j ∧ v + blo ≤ j + 1 ∧ v + alo ≤ n

theorem lookupNat_cons (j' j k : Nat) (m : List (Nat × Nat)) :
    List.lookup j' ((j, k) :: m) = if j' = j then some k else List.lookup j' m := by
  by_cases h : j' = j
  · simp [List.lookup, h]
  · have hb : (j' == j) = false := by simp [h]
    simp [List.lookup, hb, h]

theorem kOf_le_of_j2ok (alo blo n : Nat) (j2p : List (Nat × Nat))
    (hj2 : J2OK alo blo n j2p) (j : Nat) (hbj : blo ≤ j) (han : alo ≤ n) :
    kOf j2p j + blo ≤ j + 1 ∧ kOf j2p j + alo ≤ n + 1 := by
  by_cases hj0 : j = 0
  · subst hj0
    have hk : kOf j2p 0 = 1 := by simp [kOf]
    rw [hk]
    omega
  · cases hl : List.lookup (j - 1) j2p with
    | none =>
      have hk : kOf j2p j = 1 := by simp [kOf, hj0, hl]
      rw [hk]
      omega
    | some v =>
      obtain ⟨h1, h2, h3⟩ := hj2 (j - 1) v hl
      have hk : kOf j2p j = v + 1 := by simp [kOf, hj0, hl]
      rw [hk]
      omega

theorem flmInner_ok (alo ahi blo bhi i : Nat) (j2p : List (Nat × Nat))
    (hj2 : J2OK alo blo i j2p) (hi1 : alo ≤ i) (hi2 : i < ahi) :
    ∀ (js : List Nat) (st : FLMBest) (acc : List (Nat × Nat)),
    (∀ j ∈ js, blo ≤ j ∧ j < bhi) →
    StOK alo ahi blo bhi st →
    J2OK alo blo (i + 1) acc →
    StOK alo ahi blo bhi (flmInner j2p i js st acc).1 ∧
    J2OK alo blo (i + 1) (flmInner j2p i js st acc).2 := by
  intro js
  induction js with
  | nil => intro st acc _ hst hacc; exact ⟨hst, hacc⟩
  | cons j js ih =>
    intro st acc hjs hst hacc
    obtain ⟨hbj, hjhi⟩ := hjs j (List.mem_cons_self _ _)
    obtain ⟨hk1, hk2⟩ := kOf_le_of_j2ok alo blo i j2p hj2 j hbj hi1
    have hk0 : 1 ≤ kOf j2p j := by unfold kOf; omega
    simp only [flmInner]
    apply ih
    · intro x hx; exact hjs x (List.mem_cons_of_mem _ hx)
    · by_cases hlt : st.sz < kOf j2p j
      · rw [if_pos hlt]
        right
        refine ⟨hk0, ?_, ?_, ?_, ?_⟩
        · show alo ≤ i + 1 - kOf j2p j
          omega
        · show (i + 1 - kOf j2p j) + kOf j2p j ≤ ahi
          omega
        · show blo ≤ j + 1 - kOf j2p j
          omega
        · show (j + 1 - kOf j2p j) + kOf j2p j ≤ bhi
          omega
      · rw [if_neg hlt]; exact hst
    · intro j' v hl
      rw [lookupNat_cons] at hl
      by_cases hjj : j' = j
      · rw [if_pos hjj] at hl
        injection hl with hv
        subst hjj
        omega
      · rw [if_neg hjj] at hl
        exact hacc j' v hl

theorem flmOuter_ok (a b : List Char) (alo ahi blo bhi : Nat) :
    ∀ (n s : Nat) (st : FLMBest) (j2p : List (Nat × Nat)),
    alo ≤ s → s + n ≤ ahi →
    StOK alo ahi blo bhi st → J2OK alo blo s j2p →
    StOK alo ahi blo bhi (flmOuter a b blo bhi (List.range' s n) st j2p) := by
  intro n
  induction n with
  | zero => intro s st j2p _ _ hst _; simpa [flmOuter] using hst
  | succ n ih =>
    intro s st j2p hs1 hs2 hst hj2
    have hrange : List.range' s (n + 1) = s :: List.range' (s + 1) n := by
      rw [List.range'_succ]
    rw [hrange]
    simp only [flmOuter]
    have hocc : ∀ j ∈ occs b (a.getD s ' ') blo bhi, blo ≤ j ∧ j < bhi := by
      intro j hj
      unfold occs at hj
      simp only [List.mem_filter, List.mem_range, decide_eq_true_eq] at hj
      exact ⟨hj.2.1, hj.2.2.1⟩
    have hstep := flmInner_ok alo ahi blo bhi s j2p hj2 hs1 (by omega)
      (occs b (a.getD s ' ') blo bhi) st [] hocc hst
      (by intro j v h; simp [List.lookup] at h)
    exact ih (s + 1) _ _ (by omega) (by omega) hstep.1 hstep.2

theorem flmExtDown_ok (a b : List Char) (alo ahi blo bhi : Nat) :
    ∀ (f : Nat) (st : FLMBest), StOK alo ahi blo bhi st →
    StOK alo ahi blo bhi (flmExtDown a b alo blo f st) := by
  intro f
  induction f with
  | zero => intro st h; exact h
  | succ f ih =>
    intro st hst
    unfold flmExtDown
    by_cases hc : alo < st.bi ∧ blo < st.bj ∧ (a.get? (st.bi - 1)).isSome ∧
        a.get? (st.bi - 1) = b.get? (st.bj - 1)
    · rw [if_pos hc]
      apply ih
      rcases hst with h0 | ⟨h1, h2, h3, h4, h5⟩
      · rw [h0] at hc
        exact absurd hc.1 (lt_irrefl alo)
      · right
        refine ⟨?_, ?_, ?_, ?_, ?_⟩
        · show 1 ≤ st.sz + 1
          omega
        · show alo ≤ st.bi - 1
          omega
        · show (st.bi - 1) + (st.sz + 1) ≤ ahi
          have := hc.1
          omega
        · show blo ≤ st.bj - 1
          omega
        · show (st.bj - 1) + (st.sz + 1) ≤ bhi
          have := hc.2.1
          omega
    · rw [if_neg hc]
      exact hst

theorem flmExtUp_ok (a b : List Char) (alo ahi blo bhi : Nat) :
    ∀ (f : Nat) (st : FLMBest), StOK alo ahi blo bhi st →
    StOK alo ahi blo bhi (flmExtUp a b ahi bhi f st) := by
  intro f
  induction f with
  | zero => intro st h; exact h
  | succ f ih =>
    intro st hst
    unfold flmExtUp
    by_cases hc : st.bi + st.sz < ahi ∧ st.bj + st.sz < bhi ∧
        (a.get? (st.bi + st.sz)).isSome ∧
        a.get? (st.bi + st.sz) = b.get? (st.bj + st.sz)
    · rw [if_pos hc]
      apply ih
      rcases hst with h0 | ⟨h1, h2, h3, h4, h5⟩
      · rw [h0] at hc ⊢
        obtain ⟨hc1, hc2, _⟩ := hc
        dsimp only at hc1 hc2
        right
        refine ⟨?_, ?_, ?_, ?_, ?_⟩
        · show 1 ≤ 0 + 1
          omega
        · show alo ≤ alo
          omega
        · show alo + (0 + 1) ≤ ahi
          omega
        · show blo ≤ blo
          omega
        · show blo + (0 + 1) ≤ bhi
          omega
      · obtain ⟨hc1, hc2, _⟩ := hc
        right
        refine ⟨?_, h2, ?_, h4, ?_⟩
        · show 1 ≤ st.sz + 1
          omega
        · show st.bi + (st.sz + 1) ≤ ahi
          omega
        · show st.bj + (st.sz + 1) ≤ bhi
          omega
    · rw [if_neg hc]
      exact hst

theorem find_longest_match_ok (a b : List Char) (alo ahi blo bhi : Nat) :
    StOK alo ahi blo bhi (find_longest_match a b alo ahi blo bhi) := by
  unfold find_longest_match
  apply flmExtUp_ok a b alo ahi blo bhi
  apply flmExtDown_ok a b alo ahi blo bhi
  by_cases hle : alo ≤ ahi
  · exact flmOuter_ok a b alo ahi blo bhi (ahi - alo) alo ⟨alo, blo, 0⟩ []
      (Nat.le_refl alo) (by omega) (Or.inl rfl)
      (by intro j v h; simp [List.lookup] at h)
  · have h0 : ahi - alo = 0 := by omega
    rw [h0]
    left
    rfl

theorem matchTotal_le (a b : List Char) :
    ∀ (f alo ahi blo bhi : Nat),
    matchTotal a b f alo ahi blo bhi ≤ ahi - alo ∧
    matchTotal a b f alo ahi blo bhi ≤ bhi - blo := by
  intro f
  induction f with
  | zero => intro alo ahi blo bhi; simp [matchTotal]
  | succ f ih =>
    intro alo ahi blo bhi
    unfold matchTotal
    by_cases h0 : (find_longest_match a b alo ahi blo bhi).sz = 0
    · simp [h0]
    · rw [if_neg h0]
      rcases find_longest_match_ok a b alo ahi blo bhi with heq | ⟨h1, h2, h3, h4, h5⟩
      · rw [heq] at h0
        exact absurd rfl h0
      · obtain ⟨l1, l2⟩ := ih alo (find_longest_match a b alo ahi blo bhi).bi
          blo (find_longest_match a b alo ahi blo bhi).bj
        obtain ⟨r1, r2⟩ := ih
          ((find_longest_match a b alo ahi blo bhi).bi +
            (find_longest_match a b alo ahi blo bhi).sz) ahi
          ((find_longest_match a b alo ahi blo bhi).bj +
            (find_longest_match a b alo ahi blo bhi).sz) bhi
        constructor <;> omega

theorem ratioQ_nonneg (a b : List Char) : 0 ≤ ratioQ a b := by
  unfold ratioQ
  by_cases h0 : a.length + b.length = 0
  · rw [if_pos h0]
    norm_num
  · rw [if_neg h0, Rat.mkRat_eq_div]
    apply div_nonneg
    · positivity
    · positivity

theorem ratioQ_le_one (a b : List Char) : ratioQ a b ≤ 1 := by
  unfold ratioQ
  by_cases h0 : a.length + b.length = 0
  · rw [if_pos h0]
  · rw [if_neg h0, Rat.mkRat_eq_div]
    rw [div_le_one (by positivity)]
    obtain ⟨hla, _⟩ := matchTotal_le a b (a.length + b.length) 0 a.length 0 b.length
    obtain ⟨_, hlb⟩ := matchTotal_le a b (a.length + b.length) 0 a.length 0 b.length
    have hle : 2 * matchTotal a b (a.length + b.length) 0 a.length 0 b.length ≤
        a.length + b.length := by omega
    exact_mod_cast hle

/-- The diagonal invariant on identical inputs: before row `s`, the best
block is `(0, 0, s)` and the previous `j2len` row carries the full diagonal
run `s` at key `s - 1`, all its values bounded by `s` and by the key. -/
def DiagJ (s : Nat) (m : List (Nat × Nat)) : Prop :=
  (∀ j v, List.lookup j m = some v → v ≤ s ∧ v ≤ j + 1) ∧
  (1 ≤ s → List.lookup (s - 1) m = some s)

theorem kOf_le_of_diag (s : Nat) (j2p : List (Nat × Nat))
    (hd : DiagJ s j2p) (j : Nat) : kOf j2p j ≤ s + 1 ∧ kOf j2p j ≤ j + 1 := by
  by_cases hj0 : j = 0
  · subst hj0
    have hk : kOf j2p 0 = 1 := by simp [kOf]
    omega
  · cases hl : List.lookup (j - 1) j2p with
    | none =>
      have hk : kOf j2p j = 1 := by simp [kOf, hj0, hl]
      omega
    | some v =>
      obtain ⟨h1, h2⟩ := hd.1 (j - 1) v hl
      have hk : kOf j2p j = v + 1 := by simp [kOf, hj0, hl]
      omega

theorem kOf_diag_self (s : Nat) (j2p : List (Nat × Nat)) (hd : DiagJ s j2p) :
    kOf j2p s = s + 1 := by
  by_cases hs0 : s = 0
  · subst hs0
    simp [kOf]
  · have hl := hd.2 (by omega)
    simp [kOf, hs0, hl]

theorem flmInner_append (j2p : List (Nat × Nat)) (i : Nat) :
    ∀ (xs ys : List Nat) (st : FLMBest) (acc : List (Nat × Nat)),
    flmInner j2p i (xs ++ ys) st acc =
      flmInner j2p i ys (flmInner j2p i xs st acc).1 (flmInner j2p i xs st acc).2 := by
  intro xs
  induction xs with
  | nil => intro ys st acc; rfl
  | cons x xs ih =>
    intro ys st acc
    simp only [List.cons_append, flmInner]
    exact ih ys _ _

theorem flmInner_fst_noupdate (j2p : List (Nat × Nat)) (i : Nat) :
    ∀ (js : List Nat) (st : FLMBest) (acc : List (Nat × Nat)),
    (∀ j ∈ js, kOf j2p j ≤ st.sz) →
    (flmInner j2p i js st acc).1 = st := by
  intro js
  induction js with
  | nil => intro st acc _; rfl
  | cons j js ih =>
    intro st acc hk
    have hj := hk j (List.mem_cons_self _ _)
    simp only [flmInner]
    rw [if_neg (by omega)]
    exact ih st _ (fun x hx => hk x (List.mem_cons_of_mem _ hx))

theorem flmInner_snd (j2p : List (Nat × Nat)) (i : Nat) :
    ∀ (js : List Nat) (st : FLMBest) (acc : List (Nat × Nat)),
    (flmInner j2p i js st acc).2 =
      (js.map (fun j => (j, kOf j2p j))).reverse ++ acc := by
  intro js
  induction js with
  | nil => intro st acc; simp [flmInner]
  | cons j js ih =>
    intro st acc
    simp only [flmInner, List.map_cons, List.reverse_cons, List.append_assoc]
    rw [ih]
    simp

theorem lookupNat_append_left_none (j : Nat) (l1 l2 : List (Nat × Nat))
    (h : List.lookup j l1 = Option.none) :
    List.lookup j (l1 ++ l2) = List.lookup j l2 := by
  induction l1 with
  | nil => rfl
  | cons p rest ih =>
    obtain ⟨a, b⟩ := p
    rw [lookupNat_cons] at h
    by_cases hj : j = a
    · rw [if_pos hj] at h
      cases h
    · rw [if_neg hj] at h
      rw [List.cons_append, lookupNat_cons, if_neg hj]
      exact ih h

theorem lookupNat_none_of_keys (j : Nat) (l : List (Nat × Nat))
    (h : ∀ p ∈ l, p.1 ≠ j) : List.lookup j l = Option.none := by
  induction l with
  | nil => rfl
  | cons p rest ih =>
    obtain ⟨a, b⟩ := p
    rw [lookupNat_cons]
    have ha := h (a, b) (List.mem_cons_self _ _)
    rw [if_neg (fun hj => ha hj.symm)]
    exact ih (fun q hq => h q (List.mem_cons_of_mem _ hq))

theorem lookupNat_mem (j v : Nat) (l : List (Nat × Nat))
    (h : List.lookup j l = some v) : (j, v) ∈ l := by
  induction l with
  | nil => cases h
  | cons p rest ih =>
    obtain ⟨a, b⟩ := p
    rw [lookupNat_cons] at h
    by_cases hj : j = a
    · rw [if_pos hj] at h
      injection h with hv
      subst hj; subst hv
      exact List.mem_cons_self _ _
    · rw [if_neg hj] at h
      exact List.mem_cons_of_mem _ (ih h)

theorem get?_eq_getD_of_lt (l : List Char) (s : Nat) (hs : s < l.length) :
    l.get? s = some (l.getD s ' ') := by
  cases hg : l.get? s with
  | none =>
    have := List.get?_eq_none.mp hg
    omega
  | some x =>
    have : l.getD s ' ' = (l.get? s).getD ' ' := rfl
    rw [this, hg]
    rfl

theorem occs_self_split (l : List Char) (s : Nat) (hs : s < l.length) :
    ∃ A B : List Nat, occs l (l.getD s ' ') 0 l.length = A ++ s :: B ∧
      (∀ j ∈ A, j < s) ∧ (∀ j ∈ B, s < j) := by
  unfold occs
  have hr : List.range l.length = List.range' 0 s ++ List.range' s (l.length - s) := by
    have h3 := List.range'_append 0 s (l.length - s) 1
    simp only [Nat.one_mul, Nat.zero_add] at h3
    have h2 : l.length = l.length - s + s := by omega
    rw [List.range_eq_range']
    nth_rewrite 1 [h2]
    rw [← h3]
  have hr2 : List.range' s (l.length - s) = s :: List.range' (s + 1) (l.length - s - 1) := by
    have h1 : l.length - s = (l.length - s - 1) + 1 := by omega
    nth_rewrite 1 [h1]
    rw [List.range'_succ]
  rw [hr, hr2, List.filter_append, List.filter_cons]
  have hps : (decide (0 ≤ s ∧ s < l.length ∧ l.get? s = some (l.getD s ' '))) = true := by
    simp [hs, get?_eq_getD_of_lt l s hs]
  rw [hps]
  simp only [if_true]
  refine ⟨_, _, rfl, ?_, ?_⟩
  · intro j hj
    have := List.mem_range'_1.mp (List.mem_of_mem_filter hj)
    omega
  · intro j hj
    have := List.mem_range'_1.mp (List.mem_of_mem_filter hj)
    omega

/-- One row of the outer loop on identical inputs: the best block grows
along the diagonal and the new `j2len` row keeps the invariant. -/
theorem flmRow_diag (l : List Char) (s : Nat) (hs : s < l.length)
    (j2p : List (Nat × Nat)) (hd : DiagJ s j2p) :
    (flmInner j2p s (occs l (l.getD s ' ') 0 l.length) ⟨0, 0, s⟩ []).1 =
      ⟨0, 0, s + 1⟩ ∧
    DiagJ (s + 1) (flmInner j2p s (occs l (l.getD s ' ') 0 l.length) ⟨0, 0, s⟩ []).2 := by
  obtain ⟨A, B, hsplit, hA, hB⟩ := occs_self_split l s hs
  rw [hsplit]
  have hks : kOf j2p s = s + 1 := kOf_diag_self s j2p hd
  -- phase 1: A leaves the state unchanged
  have hAfst : (flmInner j2p s A ⟨0, 0, s⟩ []).1 = ⟨0, 0, s⟩ :=
    flmInner_fst_noupdate j2p s A _ [] (fun j hj => by
      obtain ⟨_, h2⟩ := kOf_le_of_diag s j2p hd j
      have := hA j hj
      show kOf j2p j ≤ s
      omega)
  -- phase 2: the diagonal element s updates the state to (0, 0, s+1)
  have hstep : ∀ acc : List (Nat × Nat),
      flmInner j2p s (s :: B) ⟨0, 0, s⟩ acc =
        flmInner j2p s B ⟨0, 0, s + 1⟩ ((s, s + 1) :: acc) := by
    intro acc
    simp only [flmInner, hks]
    rw [if_pos (by omega)]
    have h1 : s + 1 - (s + 1) = 0 := by omega
    rw [h1]
  -- phase 3: B leaves the state unchanged
  have hBfst : ∀ acc : List (Nat × Nat),
      (flmInner j2p s B ⟨0, 0, s + 1⟩ acc).1 = ⟨0, 0, s + 1⟩ := by
    intro acc
    exact flmInner_fst_noupdate j2p s B _ acc (fun j hj => by
      obtain ⟨h1, _⟩ := kOf_le_of_diag s j2p hd j
      show kOf j2p j ≤ s + 1
      omega)
  constructor
  · rw [flmInner_append, hAfst, hstep, hBfst]
  · rw [flmInner_append, hAfst, hstep]
    simp only [flmInner_snd, List.append_nil]
    constructor
    · intro j v hl
      have hmem := lookupNat_mem j v _ hl
      rcases List.mem_append.mp hmem with hm | hm
      · rw [List.mem_reverse, List.mem_map] at hm
        obtain ⟨j0, hj0, hpair⟩ := hm
        injection hpair with he1 he2
        subst he1
        obtain ⟨hb1, hb2⟩ := kOf_le_of_diag s j2p hd j0
        omega
      · rcases List.mem_cons.mp hm with he | hm2
        · injection he with he1 he2
          omega
        · rw [List.mem_reverse, List.mem_map] at hm2
          obtain ⟨j0, hj0, hpair⟩ := hm2
          injection hpair with he1 he2
          subst he1
          obtain ⟨hb1, hb2⟩ := kOf_le_of_diag s j2p hd j0
          omega
    · intro _
      rw [Nat.add_sub_cancel]
      have hfront : List.lookup s ((B.map (fun j => (j, kOf j2p j))).reverse) =
          Option.none := by
        apply lookupNat_none_of_keys
        intro p hp
        rw [List.mem_reverse, List.mem_map] at hp
        obtain ⟨j0, hj0, hpair⟩ := hp
        have hgt := hB j0 hj0
        rw [← hpair]
        show j0 ≠ s
        omega
      rw [lookupNat_append_left_none _ _ _ hfront, lookupNat_cons, if_pos rfl]

theorem flmOuter_diag (l : List Char) :
    ∀ (cnt s : Nat) (j2p : List (Nat × Nat)),
    s + cnt = l.length → DiagJ s j2p →
    flmOuter l l 0 l.length (List.range' s cnt) ⟨0, 0, s⟩ j2p =
      ⟨0, 0, l.length⟩ := by
  intro cnt
  induction cnt with
  | zero =>
    intro s j2p hsum _
    have hs : s = l.length := by omega
    subst hs
    rfl
  | succ cnt ih =>
    intro s j2p hsum hd
    rw [List.range'_succ]
    simp only [flmOuter]
    have hs : s < l.length := by omega
    obtain ⟨h1, h2⟩ := flmRow_diag l s hs j2p hd
    rw [h1]
    exact ih (s + 1) _ (by omega) h2

theorem flmExtUp_self (l : List Char) (n : Nat) :
    ∀ f : Nat, flmExtUp l l n n f ⟨0, 0, n⟩ = ⟨0, 0, n⟩ := by
  intro f
  induction f with
  | zero => rfl
  | succ f ih =>
    unfold flmExtUp
    rw [if_neg (fun hc => by
      have h1 := hc.1
      dsimp only at h1
      omega)]

theorem find_longest_match_self (l : List Char) :
    find_longest_match l l 0 l.length 0 l.length = ⟨0, 0, l.length⟩ := by
  unfold find_longest_match
  have houter : flmOuter l l 0 l.length (List.range' 0 (l.length - 0))
      ⟨0, 0, 0⟩ [] = ⟨0, 0, l.length⟩ := by
    rw [Nat.sub_zero]
    refine flmOuter_diag l l.length 0 [] (by omega) ⟨?_, ?_⟩
    · intro j v h
      simp [List.lookup] at h
    · intro h
      exact absurd h (by omega)
  rw [houter]
  exact flmExtUp_self l l.length l.length

theorem matchTotal_empty_range (a b : List Char) (f x y : Nat) :
    matchTotal a b f x x y y = 0 := by
  cases f with
  | zero => rfl
  | succ f =>
    unfold matchTotal
    have h : find_longest_match a b x x y y = ⟨x, y, 0⟩ := by
      rcases find_longest_match_ok a b x x y y with h | ⟨h1, h2, h3, h4, h5⟩
      · exact h
      · exact absurd h1 (by omega)
    rw [h]
    rw [if_pos rfl]

theorem matchTotal_self (l : List Char) (f : Nat) (hf : 1 ≤ f) :
    matchTotal l l f 0 l.length 0 l.length = l.length := by
  cases f with
  | zero => exact absurd hf (by omega)
  | succ f =>
    unfold matchTotal
    rw [find_longest_match_self l]
    by_cases hn : l.length = 0
    · rw [if_pos hn, hn]
    · rw [if_neg hn]
      show matchTotal l l f 0 0 0 0 + l.length +
        matchTotal l l f (0 + l.length) l.length (0 + l.length) l.length = l.length
      rw [matchTotal_empty_range]
      have h2 := (matchTotal_le l l f (0 + l.length) l.length
        (0 + l.length) l.length).1
      omega

theorem ratioQ_self (l : List Char) : ratioQ l l = 1 := by
  unfold ratioQ
  by_cases h0 : l.length + l.length = 0
  · rw [if_pos h0]
  · rw [if_neg h0, matchTotal_self l (l.length + l.length) (by omega)]
    rw [Rat.mkRat_eq_div]
    have hne : ((l.length + l.length : Nat) : ℚ) ≠ 0 := Nat.cast_ne_zero.mpr h0
    rw [div_eq_one_iff_eq hne]
    push_cast
    ring

/-- Claim C8, amended: `similarity(x, x) = 1` for every string (the claim
asks for non-empty strings, which follows), and the ratio always lies in
`[0, 1]`; symmetry, however, does not hold in general (see the
counterexample). -/
theorem c8_similarity_props :
    (∀ x : String, string_similarity x x = 1) ∧
    (∀ x y : String, 0 ≤ string_similarity x y ∧ string_similarity x y ≤ 1) :=
  ⟨fun _ => ratioQ_self _, fun _ _ => ⟨ratioQ_nonneg _ _, ratioQ_le_one _ _⟩⟩

/-- Claim C8, counterexample: the SequenceMatcher ratio is not symmetric.
With `a = "abcb"`, `b = "bcab"` the forward pass picks the block `"ab"`
(earliest in `a`), leaving nothing else, ratio `1/2`; the reverse pass picks
`"bc"` and then also matches the trailing `"b"`, ratio `3/4`. -/
theorem c8_counterexample :
    string_similarity "abcb" "bcab" = mkRat 1 2 ∧
    string_similarity "bcab" "abcb" = mkRat 3 4 ∧
    string_similarity "abcb" "bcab" ≠ string_similarity "bcab" "abcb" := by
  decide

/-- Witness for `c6_exact_family_matching`: the header cell
`"Fe magnetic 1"` resolves the target `"Fe magnetic 1"` to column 0. -/
theorem c6_exact_family_matching_witness :
    (∃ c, ([PyValue.str "Fe magnetic 1"].take 100).get? 0 = some c ∧
      normalize_string "Fe magnetic 1" = normalize_string (pyCellStrStripped c)) ∧
    ("Fe magnetic 1" = "Fe magnetic 1" → ∀ c,
      ([PyValue.str "Fe magnetic 1"].take 100).get? 0 = some c →
      pyCellStrStripped c ≠ "Fe magnetic 10") :=
  c6_exact_family_matching [PyValue.str "Fe magnetic 1"] ["Fe magnetic 1"]
    "Fe magnetic 1" 0 (by decide) (by decide)

/-! ## Normalization idempotence (claim C9)

`normalize_string` is idempotent on ASCII input: its output there consists
of lowercase word characters and single interior spaces, a fixed point of
every stage.  On general Unicode the claim fails, because the NFKD fold can
introduce uppercase ASCII after lowercasing already happened (counterexample
below). -/

theorem toNat_ofNat_of_lt (n : Nat) (h : n < 128) : (Char.ofNat n).toNat = n := by
  interval_cases n <;> decide

theorem pyLower_ascii (c : Char) (h : c.toNat < 128) : (pyLower c).toNat < 128 := by
  unfold pyLower
  by_cases hc : 65 ≤ c.toNat ∧ c.toNat ≤ 90
  · rw [if_pos hc, toNat_ofNat_of_lt (c.toNat + 32) (by omega)]
    omega
  · rw [if_neg hc]
    exact h

theorem pyLower_not_upper (c : Char) :
    ¬(65 ≤ (pyLower c).toNat ∧ (pyLower c).toNat ≤ 90) := by
  unfold pyLower
  by_cases hc : 65 ≤ c.toNat ∧ c.toNat ≤ 90
  · rw [if_pos hc, toNat_ofNat_of_lt _ (by omega)]
    omega
  · rw [if_neg hc]
    exact hc

theorem pyLower_fix (c : Char) (h : ¬(65 ≤ c.toNat ∧ c.toNat ≤ 90)) :
    pyLower c = c := by
  unfold pyLower
  rw [if_neg h]

theorem word_not_ws (c : Char) (h : isWordChar c = true) :
    pyIsSpace c = false := by
  unfold isWordChar at h
  have h' := of_decide_eq_true h
  unfold pyIsSpace
  apply decide_eq_false
  intro hc
  omega

/-- A character of a canonical (already-normalized ASCII) string: a
lowercase-stable ASCII word character, or the single space. -/
def canonCh (c : Char) : Prop :=
  (isWordChar c = true ∧ ¬(65 ≤ c.toNat ∧ c.toNat ≤ 90) ∧ c.toNat < 128) ∨ c = ' '

theorem canonCh_lower (c : Char) (h : canonCh c) : pyLower c = c := by
  rcases h with ⟨_, h2, _⟩ | h
  · exact pyLower_fix c h2
  · subst h
    decide

theorem canonCh_ascii (c : Char) (h : canonCh c) : c.toNat < 128 := by
  rcases h with ⟨_, _, h3⟩ | h
  · exact h3
  · subst h
    decide

theorem canonCh_not_ws (c : Char) (h : canonCh c) (hne : c ≠ ' ') :
    pyIsSpace c = false := by
  rcases h with ⟨h1, _, _⟩ | h
  · exact word_not_ws c h1
  · exact absurd h hne

theorem canonCh_ws_eq_space (c : Char) (h : canonCh c)
    (hws : pyIsSpace c = true) : c = ' ' := by
  by_cases hne : c = ' '
  · exact hne
  · rw [canonCh_not_ws c h hne] at hws
    cases hws

theorem canonCh_word_or_space (c : Char) (h : canonCh c) :
    (isWordChar c || pyIsSpace c) = true := by
  rcases h with ⟨h1, _, _⟩ | h
  · rw [h1]
    rfl
  · subst h
    decide

/-- A canonical string: canonical characters, no two adjacent spaces, no
leading or trailing space. -/
def canonList (l : List Char) : Prop :=
  (∀ c ∈ l, canonCh c) ∧
  List.Chain' (fun x y => ¬(x = ' ' ∧ y = ' ')) l ∧
  (∀ c, l.head? = some c → c ≠ ' ') ∧
  (∀ c, l.getLast? = some c → c ≠ ' ')

theorem map_eq_self_of_fix (f : Char → Char) (l : List Char)
    (h : ∀ c ∈ l, f c = c) : l.map f = l := by
  induction l with
  | nil => rfl
  | cons c rest ih =>
    rw [List.map_cons, h c (List.mem_cons_self _ _),
      ih (fun x hx => h x (List.mem_cons_of_mem _ hx))]

theorem dropWhile_eq_self_of_head (p : Char → Bool) (l : List Char)
    (h : ∀ c, l.head? = some c → p c = false) : l.dropWhile p = l := by
  cases l with
  | nil => rfl
  | cons c rest =>
    have := h c rfl
    simp [List.dropWhile_cons, this]

theorem pyStrip_eq_self (l : List Char)
    (hh : ∀ c, l.head? = some c → pyIsSpace c = false)
    (hl : ∀ c, l.getLast? = some c → pyIsSpace c = false) : pyStrip l = l := by
  unfold pyStrip
  rw [dropWhile_eq_self_of_head pyIsSpace l hh]
  rw [dropWhile_eq_self_of_head pyIsSpace l.reverse (by
    intro c hc
    rw [List.head?_reverse] at hc
    exact hl c hc)]
  exact List.reverse_reverse l

theorem flatMap_nfkd_ascii (l : List Char) (h : ∀ c ∈ l, c.toNat < 128) :
    l.flatMap nfkdAsciiFold = l := by
  induction l with
  | nil => rfl
  | cons c rest ih =>
    have hc := h c (List.mem_cons_self _ _)
    have hfold : nfkdAsciiFold c = [c] := by
      unfold nfkdAsciiFold
      rw [if_pos hc]
    rw [List.flatMap_cons, hfold, ih (fun x hx => h x (List.mem_cons_of_mem _ hx))]
    rfl

theorem collapseWsAux_eq_self (l : List Char) :
    ∀ b : Bool,
    (∀ c ∈ l, canonCh c) →
    List.Chain' (fun x y => ¬(x = ' ' ∧ y = ' ')) l →
    (b = true → ∀ c, l.head? = some c → c ≠ ' ') →
    collapseWsAux b l = l := by
  induction l with
  | nil => intro b _ _ _; rfl
  | cons c rest ih =>
    intro b hcanon hchain hhead
    have hc := hcanon c (List.mem_cons_self _ _)
    unfold collapseWsAux
    by_cases hws : pyIsSpace c = true
    · have hsp : c = ' ' := canonCh_ws_eq_space c hc hws
      cases b with
      | true => exact absurd hsp (hhead rfl c rfl)
      | false =>
        rw [if_pos hws]
        have hrest : collapseWsAux true rest = rest := by
          apply ih true
          · intro x hx; exact hcanon x (List.mem_cons_of_mem _ hx)
          · exact hchain.tail
          · intro _ d hd
            subst hsp
            have := (List.chain'_cons'.mp hchain).1 d hd
            intro hd'
            exact this ⟨rfl, hd'⟩
        rw [hrest, hsp]
        rfl
    · rw [if_neg hws]
      rw [ih false (fun x hx => hcanon x (List.mem_cons_of_mem _ hx)) hchain.tail
        (fun hb => by cases hb)]

/-- A canonical string is a fixed point of `normalize_string`. -/
theorem normalize_canon (s : String) (h : canonList s.data) :
    normalize_string s = s := by
  obtain ⟨hchars, hchain, hhead, hlast⟩ := h
  have hstrip : pyStrip s.data = s.data :=
    pyStrip_eq_self s.data
      (fun c hc => canonCh_not_ws c
        (hchars c (List.mem_of_mem_head? (Option.mem_def.mpr hc))) (hhead c hc))
      (fun c hc => canonCh_not_ws c
        (hchars c (List.mem_of_mem_getLast? hc)) (hlast c hc))
  simp only [normalize_string]
  rw [map_eq_self_of_fix pyLower s.data (fun c hc => canonCh_lower c (hchars c hc))]
  rw [hstrip]
  rw [flatMap_nfkd_ascii s.data (fun c hc => canonCh_ascii c (hchars c hc))]
  rw [map_eq_self_of_fix _ s.data (fun c hc => by
    rw [if_pos (canonCh_word_or_space c (hchars c hc))])]
  unfold collapseWs
  rw [collapseWsAux_eq_self s.data false hchars hchain (fun hb => by cases hb)]
  rw [hstrip]


theorem head?_dropWhile_not (p : Char → Bool) (l : List Char) :
    ∀ c, (l.dropWhile p).head? = some c → p c = false := by
  induction l with
  | nil => intro c h; cases h
  | cons x rest ih =>
    intro c h
    by_cases hp : p x
    · rw [List.dropWhile_cons_of_pos hp] at h
      exact ih c h
    · rw [List.dropWhile_cons_of_neg hp] at h
      injection h with hx
      rw [← hx]
      exact Bool.of_not_eq_true hp

theorem getLast?_dropWhile_or (p : Char → Bool) (l : List Char) :
    l.dropWhile p = [] ∨ (l.dropWhile p).getLast? = l.getLast? := by
  induction l with
  | nil => left; rfl
  | cons x rest ih =>
    by_cases hp : p x
    · rw [List.dropWhile_cons_of_pos hp]
      rcases ih with h | h
      · by_cases hnil : rest.dropWhile p = []
        · left; exact hnil
        · exact absurd h hnil
      · by_cases hnil : rest.dropWhile p = []
        · left; exact hnil
        · right
          rw [h]
          cases rest with
          | nil => exact absurd List.dropWhile_nil hnil
          | cons y ys => rfl
    · rw [List.dropWhile_cons_of_neg hp]
      right
      rfl

theorem mem_pyStrip (l : List Char) (c : Char) (h : c ∈ pyStrip l) : c ∈ l := by
  unfold pyStrip at h
  rw [List.mem_reverse] at h
  have h1 := (List.dropWhile_suffix pyIsSpace).subset h
  rw [List.mem_reverse] at h1
  exact (List.dropWhile_suffix pyIsSpace).subset h1

theorem pyStrip_chain (R : Char → Char → Prop)
    (l : List Char) (h : List.Chain' R l) : List.Chain' R (pyStrip l) := by
  unfold pyStrip
  have h1 : List.Chain' R (l.dropWhile pyIsSpace) :=
    List.Chain'.suffix h (List.dropWhile_suffix pyIsSpace)
  have h2 : List.Chain' (flip R) (l.dropWhile pyIsSpace).reverse :=
    List.chain'_reverse.mpr h1
  have h3 : List.Chain' (flip R)
      ((l.dropWhile pyIsSpace).reverse.dropWhile pyIsSpace) :=
    List.Chain'.suffix h2 (List.dropWhile_suffix pyIsSpace)
  exact List.chain'_reverse.mpr h3

theorem pyStrip_head_not_ws (l : List Char) :
    ∀ c, (pyStrip l).head? = some c → pyIsSpace c = false := by
  intro c h
  unfold pyStrip at h
  rw [List.head?_reverse] at h
  rcases getLast?_dropWhile_or pyIsSpace (l.dropWhile pyIsSpace).reverse
      with hnil | hlst
  · rw [hnil] at h
    cases h
  · rw [hlst, List.getLast?_reverse] at h
    exact head?_dropWhile_not pyIsSpace l c h

theorem pyStrip_last_not_ws (l : List Char) :
    ∀ c, (pyStrip l).getLast? = some c → pyIsSpace c = false := by
  intro c h
  unfold pyStrip at h
  rw [List.getLast?_reverse] at h
  exact head?_dropWhile_not pyIsSpace _ c h

theorem collapseWsAux_mem (l : List Char) :
    ∀ (b : Bool) (c : Char), c ∈ collapseWsAux b l →
    c = ' ' ∨ (c ∈ l ∧ pyIsSpace c = false) := by
  induction l with
  | nil => intro b c hc; cases hc
  | cons x rest ih =>
    intro b c hc
    unfold collapseWsAux at hc
    by_cases hx : pyIsSpace x = true
    · rw [if_pos hx] at hc
      rcases List.mem_append.mp hc with hm | hm
      · cases b with
        | true => cases hm
        | false =>
          have hm' : c ∈ [' '] := hm
          rcases List.mem_singleton.mp hm' with rfl
          left; rfl
      · rcases ih true c hm with h | ⟨h1, h2⟩
        · left; exact h
        · right; exact ⟨List.mem_cons_of_mem _ h1, h2⟩
    · rw [if_neg hx] at hc
      rcases List.mem_cons.mp hc with rfl | hm
      · right
        exact ⟨List.mem_cons_self _ _, Bool.of_not_eq_true hx⟩
      · rcases ih false c hm with h | ⟨h1, h2⟩
        · left; exact h
        · right; exact ⟨List.mem_cons_of_mem _ h1, h2⟩

theorem collapseWsAux_head_true (l : List Char) :
    ∀ c, (collapseWsAux true l).head? = some c → pyIsSpace c = false := by
  induction l with
  | nil => intro c h; cases h
  | cons x rest ih =>
    intro c h
    unfold collapseWsAux at h
    by_cases hx : pyIsSpace x = true
    · rw [if_pos hx] at h
      exact ih c h
    · rw [if_neg hx] at h
      injection h with hx2
      rw [← hx2]
      exact Bool.of_not_eq_true hx

theorem collapseWsAux_chain (l : List Char) :
    ∀ b : Bool, List.Chain'
      (fun x y => ¬(pyIsSpace x = true ∧ pyIsSpace y = true))
      (collapseWsAux b l) := by
  induction l with
  | nil => intro b; exact List.chain'_nil
  | cons x rest ih =>
    intro b
    unfold collapseWsAux
    by_cases hx : pyIsSpace x = true
    · rw [if_pos hx]
      cases b with
      | true => exact ih true
      | false =>
        show List.Chain' _ (' ' :: collapseWsAux true rest)
        refine List.chain'_cons'.mpr ⟨?_, ih true⟩
        intro y hy
        have hns := collapseWsAux_head_true rest y hy
        intro hcon
        have := hcon.2
        rw [hns] at this
        exact Bool.false_ne_true this
    · rw [if_neg hx]
      refine List.chain'_cons'.mpr ⟨?_, ih false⟩
      intro y _
      intro hcon
      exact hx hcon.1

theorem canonList_strip_collapse (l : List Char)
    (hl : ∀ c ∈ l, (isWordChar c || pyIsSpace c) = true ∧ c.toNat < 128 ∧
      ¬(65 ≤ c.toNat ∧ c.toNat ≤ 90)) :
    canonList (pyStrip (collapseWs l)) := by
  refine ⟨?_, ?_, ?_, ?_⟩
  · intro c hc
    have hc2 := mem_pyStrip _ c hc
    rcases collapseWsAux_mem l false c hc2 with rfl | ⟨h1, h2⟩
    · right; rfl
    · obtain ⟨hw, hasc, hnu⟩ := hl c h1
      left
      refine ⟨?_, hnu, hasc⟩
      rcases Bool.or_eq_true_iff.mp hw with h | h
      · exact h
      · rw [h2] at h
        exact absurd h Bool.false_ne_true
  · have hch := collapseWsAux_chain l false
    have hch2 : List.Chain' (fun x y => ¬(x = ' ' ∧ y = ' '))
        (collapseWs l) := by
      refine hch.imp ?_
      intro a b hab hc
      exact hab ⟨by rw [hc.1]; decide, by rw [hc.2]; decide⟩
    exact pyStrip_chain _ _ hch2
  · intro c hc
    have hns := pyStrip_head_not_ws _ c hc
    intro heq
    rw [heq] at hns
    exact absurd hns (by decide)
  · intro c hc
    have hns := pyStrip_last_not_ws _ c hc
    intro heq
    rw [heq] at hns
    exact absurd hns (by decide)

/-- On ASCII input the first `normalize_string` pass already produces a
canonical string. -/
theorem normalize_ascii_canon (s : String) (h : ∀ c ∈ s.data, c.toNat < 128) :
    canonList (normalize_string s).data := by
  show canonList (pyStrip (collapseWs
    (((pyStrip (s.data.map pyLower)).flatMap nfkdAsciiFold).map
      (fun c => if isWordChar c || pyIsSpace c then c else ' '))))
  apply canonList_strip_collapse
  intro c hc
  rw [List.mem_map] at hc
  obtain ⟨x, hx, hbx⟩ := hc
  have hstage : ∀ y ∈ pyStrip (s.data.map pyLower),
      y.toNat < 128 ∧ ¬(65 ≤ y.toNat ∧ y.toNat ≤ 90) := by
    intro y hy
    have hy2 := mem_pyStrip _ y hy
    rw [List.mem_map] at hy2
    obtain ⟨z, hz, hbz⟩ := hy2
    rw [← hbz]
    exact ⟨pyLower_ascii z (h z hz), pyLower_not_upper z⟩
  rw [flatMap_nfkd_ascii _ (fun y hy => (hstage y hy).1)] at hx
  obtain ⟨hasc, hnu⟩ := hstage x hx
  by_cases hw : (isWordChar x || pyIsSpace x) = true
  · rw [if_pos hw] at hbx
    rw [← hbx]
    exact ⟨hw, hasc, hnu⟩
  · rw [if_neg hw] at hbx
    rw [← hbx]
    exact ⟨by decide, by decide, by decide⟩

/-- C9: `normalize_string` is idempotent on ASCII input: for every string
whose characters are all ASCII, normalizing twice equals normalizing once.
(The unrestricted claim fails — see the counterexample — because the
NFKD/ASCII projection can reintroduce uppercase letters after the
lowercasing step.) -/
theorem c9_normalize_idempotent_ascii (s : String)
    (h : ∀ c ∈ s.data, c.toNat < 128) :
    normalize_string (normalize_string s) = normalize_string s :=
  normalize_canon _ (normalize_ascii_canon s h)

theorem c9_normalize_idempotent_ascii_witness :
    (∀ c ∈ "  Fe  Magnetic_1 !? ".data, c.toNat < 128) ∧
    normalize_string (normalize_string "  Fe  Magnetic_1 !? ") =
      normalize_string "  Fe  Magnetic_1 !? " :=
  ⟨by decide, c9_normalize_idempotent_ascii "  Fe  Magnetic_1 !? " (by decide)⟩

/-- C9 counterexample: `normalize_string` is not idempotent in general.
The numero sign lowercases to itself, then NFKD-folds to the ASCII pair
"No", whose uppercase letter is only lowercased on the second pass:
normalize("№") = "No" but normalize(normalize("№")) = "no". -/
theorem c9_counterexample :
    normalize_string (String.mk ['№']) = "No" ∧
    normalize_string (normalize_string (String.mk ['№'])) = "no" ∧
    normalize_string (normalize_string (String.mk ['№'])) ≠
      normalize_string (String.mk ['№']) := by
  refine ⟨by decide, by decide, by decide⟩
